import Mathlib

/-!
Verification of `copyBinaries` (cni/pkg/install/binaries.go)

A shallow embedding of the binary synchroniser and of the file-system
primitives it calls, followed by theorems about it.

Scope of the embedding

The file system is flat: it maps the path of a directory to the list of its entries,
and `filepath.Join targetDir name` is read as the entry `name` of the directory
`targetDir`.  This is what the Go code computes on the domain described by `inScope`,
and the theorems about the path-dependent properties are stated on that domain:

* `binariesPrefix` is a fragment of a file name: it holds no path separator (and no
  NUL), so that `binariesPrefix + name` is one path component.  With a separator or
  `..` in the prefix, `filepath.Join` resolves the destination into another directory.
* `srcDir` and the target directories are given by clean absolute paths, and distinct
  paths name distinct directories.  The path of a target directory holds none of the
  glob metacharacters, so that the directory part of the pattern handed to
  `filepath.Glob` is literal.
* None of these directories lies below another of them.  A subdirectory of a target
  directory is an entry of it and nothing more; its removal by `os.Remove` cannot
  take a source or target directory away.
* The entries of these directories have valid file names (non-empty, without
  separator, neither `.` nor `..`), each name once.

Further conventions:

* An entry is a regular file or a directory; symbolic links are not represented.
* Go compares strings bytewise; for valid UTF-8 this is the code point order used
  here.
* `filepath.Match` works on bytes and decodes runes where the pattern has `?` or a
  character class.  The matcher here works on characters.  The two agree when the
  name is ASCII, and when the pattern is literal up to a final `*`; the theorems
  that say which names a cleanup matches are stated for such patterns, and the
  concrete runs use ASCII names.
* The file system is passed explicitly.  Primitives that can fail do so as a
  function of the file-system state: a directory may be missing or not writable, an
  entry may be unreadable, and an entry may be immutable (it can neither be removed
  nor replaced, like a file with the immutable attribute or a non-empty directory).
* `os.ReadDir`, `os.Stat`, `os.Remove`, `filepath.Glob` and `filepath.Match` follow the
  documentation of the Go standard library.  `file.IsDirWriteable` and
  `file.AtomicCopy` belong to `istio.io/istio/pkg/file`, which is not among the
  sources at hand; they are modelled from the specification.

Contents

The definitions come first: the data model, the primitives, `copyBinaries` with its
loop body `copyFile` and inner loop `copyFiles`, concrete file systems, and the
notions used in the statements.  The lemmas follow, and the last section states
the properties C1 to C10 of the specification, each with an instance on a concrete file
system and, where the property had to be amended, a concrete run on which the
original wording fails.
-/

namespace CopyBinaries

/-! ## Data model -/

/-- A file name (one path component). -/
abbrev Name := List Char

/-- A directory entry: a regular file with contents, or a subdirectory.  The flags
describe the real entry: `readable` is false when the file cannot be opened for
reading; `immutable` is true when `os.Remove` of the entry and a rename over it fail,
as for a file with the immutable attribute and for a non-empty directory. -/
structure Entry where
  name : Name
  isDir : Bool
  contents : String
  readable : Bool
  immutable : Bool
deriving DecidableEq, Repr

/-- A directory: its entries and whether new entries can be written to it. -/
structure Dir where
  writable : Bool
  entries : List Entry
deriving DecidableEq, Repr

/-- A file system maps directory paths to directories. -/
abbrev FS := String → Option Dir

/-- Errors of the primitives; each records the operation that failed. -/
inductive Error where
  | notWritable (dir : String)
  | readDir (dir : String)
  | remove (dir : String) (name : Name)
  | copy (srcDir : String) (name : Name) (targetDir : String) (targetName : Name)
deriving DecidableEq, Repr

/-! ## Entries of a directory -/

/-- The entry called `n` in a list of entries. -/
def lookup (es : List Entry) (n : Name) : Option Entry :=
  es.find? (fun e => decide (e.name = n))

/-- The entry list without any entry called `n`. -/
def eraseName (es : List Entry) (n : Name) : List Entry :=
  es.filter (fun e => !decide (e.name = n))

/-- The entry list in which `e` is the entry called `e.name`. -/
def putEntry (es : List Entry) (e : Entry) : List Entry :=
  e :: eraseName es e.name

/-- The entry called `n` of directory `d`. -/
def FS.entry (fs : FS) (d : String) (n : Name) : Option Entry :=
  match fs d with
  | none => none
  | some dir => lookup dir.entries n

/-- Replace the entry list of directory `d`. -/
def FS.setEntries (fs : FS) (d : String) (es : List Entry) : FS :=
  fun x => if x = d then (fs d).map (fun dir => { dir with entries := es }) else fs x

/-- Lexicographic order on names by code point (Go: bytewise string order). -/
def nameLE : Name → Name → Bool
  | [], _ => true
  | _ :: _, [] => false
  | a :: as, b :: bs => decide (a.toNat < b.toNat) || (decide (a = b) && nameLE as bs)

/-- Insert an entry into a list sorted by name, before the first entry not below it. -/
def insertByName (e : Entry) : List Entry → List Entry
  | [] => [e]
  | x :: xs => if nameLE e.name x.name then e :: x :: xs else x :: insertByName e xs

/-- Sort entries by file name (insertion sort, stable). -/
def sortByName : List Entry → List Entry
  | [] => []
  | e :: es => insertByName e (sortByName es)

/-- The entries as `os.ReadDir` lists them: sorted by file name. -/
def listing (dir : Dir) : List Entry := sortByName dir.entries

/-! ## Shell patterns (`path/filepath.Match`) -/

/-- A term of a pattern: `*`, `?`, a character class, or a literal character. -/
inductive Term where
  | star
  | any
  | cls (negated : Bool) (ranges : List (Char × Char))
  | lit (c : Char)
deriving DecidableEq, Repr

/-- Where the pattern scanner stands: outside a class, after a backslash, or at
some point inside a character class `[...]`. -/
inductive Scan where
  | top
  | esc
  | clsOpen
  | item (negated : Bool) (ranges : List (Char × Char))
  | itemEsc (negated : Bool) (ranges : List (Char × Char))
  | afterLo (negated : Bool) (ranges : List (Char × Char)) (lo : Char)
  | hi (negated : Bool) (ranges : List (Char × Char)) (lo : Char)
  | hiEsc (negated : Bool) (ranges : List (Char × Char)) (lo : Char)
deriving DecidableEq, Repr

/-- The scanner at the start of a range of a class holding `rs` already: `]` closes
a non-empty class, `-` is malformed, a backslash escapes, another character is the
low end of a range. -/
def scanItem (neg : Bool) (rs : List (Char × Char)) (c : Char) : Option (Scan × Option Term) :=
  if c = ']' then (if rs = [] then none else some (Scan.top, some (Term.cls neg rs)))
  else if c = '-' then none
  else if c = '\\' then some (Scan.itemEsc neg rs, none)
  else some (Scan.afterLo neg rs c, none)

/-- One step of the pattern scanner; `none` is `ErrBadPattern`. -/
def scanStep : Scan → Char → Option (Scan × Option Term)
  | .top, c =>
    if c = '*' then some (.top, some .star)
    else if c = '?' then some (.top, some .any)
    else if c = '[' then some (.clsOpen, none)
    else if c = '\\' then some (.esc, none)
    else some (.top, some (.lit c))
  | .esc, c => some (.top, some (.lit c))
  | .clsOpen, c => if c = '^' then some (.item true [], none) else scanItem false [] c
  | .item neg rs, c => scanItem neg rs c
  | .itemEsc neg rs, c => some (.afterLo neg rs c, none)
  | .afterLo neg rs lo, c =>
    if c = '-' then some (.hi neg rs lo, none) else scanItem neg (rs ++ [(lo, lo)]) c
  | .hi neg rs lo, c =>
    if c = ']' then none
    else if c = '-' then none
    else if c = '\\' then some (.hiEsc neg rs lo, none)
    else some (.item neg (rs ++ [(lo, c)]), none)
  | .hiEsc neg rs lo, c => some (.item neg (rs ++ [(lo, c)]), none)

/-- The terms of a pattern, or `none` when the pattern is malformed (a trailing
backslash, an unterminated or empty character class, a stray `-` or `]` in one). -/
def parsePattern : Scan → List Char → Option (List Term)
  | .top, [] => some []
  | _, [] => none
  | s, c :: p =>
    match scanStep s c with
    | none => none
    | some (s1, none) => parsePattern s1 p
    | some (s1, some t) => (parsePattern s1 p).map (fun ts => t :: ts)

/-- A `*` followed by the rest of the pattern `k`: skip any run of non-separator
characters.  Go retries after a `*` at every byte offset; the offsets are the
character boundaries when the name is ASCII, and they make no difference when `k`
is the end of the pattern. -/
def matchStar (k : List Char → Bool) : List Char → Bool
  | [] => k []
  | c :: s => k (c :: s) || (!decide (c = '/') && matchStar k s)

/-- Does the name match the parsed pattern? -/
def matchTerms : List Term → List Char → Bool
  | [], s => s.isEmpty
  | .star :: ts, s => matchStar (matchTerms ts) s
  | _ :: _, [] => false
  | .any :: ts, c :: s => !decide (c = '/') && matchTerms ts s
  | .cls neg rs :: ts, c :: s =>
    (rs.any (fun r => decide (r.1.toNat ≤ c.toNat) && decide (c.toNat ≤ r.2.toNat)) != neg)
      && matchTerms ts s
  | .lit a :: ts, c :: s => decide (a = c) && matchTerms ts s

/-- Model of `filepath.Match pattern name`: `none` for a malformed pattern.  It agrees
with Go when the name is ASCII, and when the pattern is literal up to a final `*`. -/
def filepathMatch (pattern name : List Char) : Option Bool :=
  (parsePattern .top pattern).map (fun ts => matchTerms ts name)

/-- The temp-file pattern of a destination name: `targetFilename + ".tmp.*"`. -/
def tmpPattern (targetFilename : Name) : List Char :=
  targetFilename ++ ['.', 't', 'm', 'p', '.', '*']

/-- Is `n` matched by the temp-file pattern of `targetFilename`?  A malformed
pattern matches nothing. -/
def tmpMatch (targetFilename n : Name) : Bool :=
  (filepathMatch (tmpPattern targetFilename) n).getD false

/-- Patterns, names and the result of `filepath.Match` in Go (`none` is `ErrBadPattern`):
the ASCII cases of the test table of the package `path/filepath`. -/
def matchTable : List (String × String × Option Bool) :=
  [("abc", "abc", some true), ("*", "abc", some true), ("*c", "abc", some true),
   ("a*", "a", some true), ("a*", "abc", some true), ("a*", "ab/c", some false),
   ("a*/b", "abc/b", some true), ("a*/b", "a/c/b", some false),
   ("a*b*c*d*e*/f", "axbxcxdxe/f", some true), ("a*b*c*d*e*/f", "axbxcxdxexxx/f", some true),
   ("a*b*c*d*e*/f", "axbxcxdxe/xxx/f", some false),
   ("a*b*c*d*e*/f", "axbxcxdxexxx/fff", some false),
   ("a*b?c*x", "abxbbxdbxebxczzx", some true), ("a*b?c*x", "abxbbxdbxebxczzy", some false),
   ("ab[c]", "abc", some true), ("ab[b-d]", "abc", some true), ("ab[e-g]", "abc", some false),
   ("ab[^c]", "abc", some false), ("ab[^b-d]", "abc", some false),
   ("ab[^e-g]", "abc", some true), ("a\\*b", "a*b", some true), ("a\\*b", "ab", some false),
   ("a?b", "a/b", some false), ("a*b", "a/b", some false),
   ("[\\]a]", "]", some true), ("[\\-]", "-", some true), ("[x\\-]", "x", some true),
   ("[x\\-]", "-", some true), ("[x\\-]", "z", some false), ("[\\-x]", "x", some true),
   ("[\\-x]", "-", some true), ("[\\-x]", "a", some false), ("[]a]", "]", none),
   ("[-]", "-", none), ("[x-]", "x", none), ("[x-]", "-", none), ("[x-]", "z", none),
   ("[-x]", "x", none), ("[-x]", "-", none), ("[-x]", "a", none), ("\\", "a", none),
   ("[a-b-c]", "a", none), ("[", "a", none), ("[^", "a", none), ("[^bc", "a", none),
   ("a[", "a", none), ("a[", "ab", none), ("a[", "x", none), ("a/b[", "x", none),
   ("*x", "xxx", some true)]

/-! ## File-system primitives -/

/-- Model of `os.ReadDir`: the entries sorted by file name, or an error when the
directory does not exist. -/
def osReadDir (fs : FS) (d : String) : Except Error (List Entry) :=
  match fs d with
  | none => .error (.readDir d)
  | some dir => .ok (listing dir)

/-- Model of `os.Stat path` for `path = filepath.Join d n`, where `n` is one path
component (a valid file name): does it succeed?  For such `n` the joined path is the
entry `n` of `d`; a name with a separator is outside the domain (see `inScope`). -/
def osStat (fs : FS) (d : String) (n : Name) : Bool :=
  (fs.entry d n).isSome

/-- Model of `filepath.Glob (filepath.Join d targetFilename + ".tmp.*")` for a
directory path `d` without glob metacharacters and a `targetFilename` without
separator (see `inScope`): the directory part of the pattern is then the literal `d`,
and the result is the names of the entries of `d`, in sorted order, that match the
file part; nothing when the pattern is malformed or the directory cannot be read. -/
def filepathGlob (fs : FS) (d : String) (targetFilename : Name) : List Name :=
  match fs d with
  | none => []
  | some dir => ((listing dir).map Entry.name).filter (tmpMatch targetFilename)

/-- Model of `os.Remove (filepath.Join d n)` for an entry name `n`: the entry is
removed unless it is missing, immutable, or the directory is not writable.  The entry
may be an empty subdirectory; the file system keeps no directory below `d` that the
run uses (see `inScope`), so nothing but the entry goes. -/
def osRemove (fs : FS) (d : String) (n : Name) : FS × Option Error :=
  match fs d with
  | none => (fs, some (.remove d n))
  | some dir =>
    match lookup dir.entries n with
    | none => (fs, some (.remove d n))
    | some e =>
      if dir.writable && !e.immutable then (fs.setEntries d (eraseName dir.entries n), none)
      else (fs, some (.remove d n))

/-- The entry that a copy of contents `c` installs under the name `n`. -/
def installed (n : Name) (c : String) : Entry :=
  { name := n, isDir := false, contents := c, readable := true, immutable := false }

/-- Modelled from the spec: `file.IsDirWriteable` of `istio.io/istio/pkg/file`, which
is not part of the sources at hand; the spec describes it as a probe of whether the
directory is writable.  `none` means writable. -/
def isDirWriteable (fs : FS) (d : String) : Option Error :=
  match fs d with
  | none => some (.notWritable d)
  | some dir => if dir.writable then none else some (.notWritable d)

/-- Modelled from the spec: `file.AtomicCopy` of `istio.io/istio/pkg/file`, which is
not part of the sources at hand.  The spec: the full contents of the source file are
written to a temporary sibling of the destination, which is then renamed over the
final name; a failure leaves the destination as it was.  In this model the copy fails
when the source is missing, a directory or unreadable, when the target directory is
missing or not writable, and when the destination is a directory or immutable; a
failed copy leaves the whole file system as it was. -/
def atomicCopy (fs : FS) (srcDir : String) (name : Name) (targetDir : String)
    (targetFilename : Name) : Except Error FS :=
  match fs.entry srcDir name with
  | none => .error (.copy srcDir name targetDir targetFilename)
  | some s =>
    if s.isDir || !s.readable then .error (.copy srcDir name targetDir targetFilename)
    else
      match fs targetDir with
      | none => .error (.copy srcDir name targetDir targetFilename)
      | some td =>
        if !td.writable then .error (.copy srcDir name targetDir targetFilename)
        else
          match lookup td.entries targetFilename with
          | none =>
            .ok (fs.setEntries targetDir
              (putEntry td.entries (installed targetFilename s.contents)))
          | some old =>
            if old.isDir || old.immutable then
              .error (.copy srcDir name targetDir targetFilename)
            else
              .ok (fs.setEntries targetDir
                (putEntry td.entries (installed targetFilename s.contents)))

/-! ## The synchroniser -/

/-- Lines 60-68 of `copyBinaries`: delete every match of the temp-file pattern of
`targetFilename` in `targetDir`; a failed deletion is logged and ignored. -/
def removeStaleTemps (fs : FS) (targetDir : String) (targetFilename : Name) : FS :=
  (filepathGlob fs targetDir targetFilename).foldl (fun s m => (osRemove s targetDir m).1) fs

/-- Does the body of the inner loop go on to copy `f` (lines 40-55): a regular file,
not in the skip set, whose destination is missing or is to be updated? -/
def proceeds (targetDir : String) (updateBinaries : Bool) (skipBinaries : List Name)
    (binariesPrefix : Name) (fs : FS) (f : Entry) : Bool :=
  !f.isDir && !decide (f.name ∈ skipBinaries) &&
    !(osStat fs targetDir (binariesPrefix ++ f.name) && !updateBinaries)

/-- The body of the inner loop of `copyBinaries` (lines 40-73) for one source entry:
the file system it leaves and the error it returns with, if any. -/
def copyFile (srcDir targetDir : String) (updateBinaries : Bool) (skipBinaries : List Name)
    (binariesPrefix : Name) (fs : FS) (f : Entry) : FS × Option Error :=
  if f.isDir then (fs, none)
  else if f.name ∈ skipBinaries then (fs, none)
  else if osStat fs targetDir (binariesPrefix ++ f.name) && !updateBinaries then (fs, none)
  else
    let fs1 := removeStaleTemps fs targetDir (binariesPrefix ++ f.name)
    match atomicCopy fs1 srcDir f.name targetDir (binariesPrefix ++ f.name) with
    | .error e => (fs1, some e)
    | .ok fs2 => (fs2, none)

/-- The inner loop of `copyBinaries` (lines 39-74): the source entries in order,
stopping at the first error. -/
def copyFiles (srcDir targetDir : String) (updateBinaries : Bool) (skipBinaries : List Name)
    (binariesPrefix : Name) : List Entry → FS → FS × Option Error
  | [], fs => (fs, none)
  | f :: rest, fs =>
    match copyFile srcDir targetDir updateBinaries skipBinaries binariesPrefix fs f with
    | (fs1, some e) => (fs1, some e)
    | (fs1, none) =>
      copyFiles srcDir targetDir updateBinaries skipBinaries binariesPrefix rest fs1

/-- The function `copyBinaries`: the file system after the call and the returned
error (`none` is `nil`). -/
def copyBinaries (srcDir : String) (targetDirs : List String) (updateBinaries : Bool)
    (skipBinaries : List Name) (binariesPrefix : Name) (fs : FS) : FS × Option Error :=
  match targetDirs with
  | [] => (fs, none)
  | targetDir :: rest =>
    match isDirWriteable fs targetDir with
    | some _ => copyBinaries srcDir rest updateBinaries skipBinaries binariesPrefix fs
    | none =>
      match osReadDir fs srcDir with
      | .error e => (fs, some e)
      | .ok files =>
        match copyFiles srcDir targetDir updateBinaries skipBinaries binariesPrefix files fs with
        | (fs1, some e) => (fs1, some e)
        | (fs1, none) =>
          copyBinaries srcDir rest updateBinaries skipBinaries binariesPrefix fs1

/-! ## Concrete file systems

The scenarios of `binaries_test.go` and further small file systems on which the
theorems are instantiated. -/

/-- A readable regular file. -/
def mkFile (name contents : String) : Entry :=
  { name := name.toList, isDir := false, contents := contents, readable := true,
    immutable := false }

/-- A file system with a source directory `/src`, a writable target `/t`, a second,
empty writable target `/t2` and an unwritable directory `/ro`. -/
def mkFS (src tgt : List Entry) : FS := fun d =>
  if d = "/src" then some { writable := true, entries := src }
  else if d = "/t" then some { writable := true, entries := tgt }
  else if d = "/t2" then some { writable := true, entries := [] }
  else if d = "/ro" then some { writable := false, entries := [mkFile "keep" "k"] }
  else none

/-- `TestCopyBinaries`, "update binaries" and "don't update binaries": both binaries are
installed already, one of them with older contents. -/
def basicFS : FS :=
  mkFS [mkFile "istio-cni" "cni111", mkFile "istio-iptables" "iptables111"]
    [mkFile "istio-cni" "cni000", mkFile "istio-iptables" "iptables111"]

/-- One binary is installed already, with older contents, and the other is missing. -/
def partialFS : FS :=
  mkFS [mkFile "istio-cni" "cni111", mkFile "istio-iptables" "iptables111"]
    [mkFile "istio-cni" "cni000"]

/-- `TestCopyBinariesWhenTmpExist`: two stale temp files of different prefixes. -/
def tmpExistFS : FS :=
  mkFS [mkFile "istio-cni" "content"]
    [mkFile "v2-5-istio-cni.tmp.3816169537" "content",
     mkFile "v2-4-istio-cni.tmp.4977877" "content"]

/-- A source file whose name is a temp name of another source file, and a target that
holds a file of that name. -/
def tmpNameFS : FS :=
  mkFS [mkFile "a" "A", mkFile "a.tmp.1" "S"] [mkFile "a.tmp.1" "OLD"]

/-- A source file whose name has the form of a temp name, and a target that holds an
older file of that name. -/
def tmpOnlyFS : FS := mkFS [mkFile "q.tmp.1" "NEW"] [mkFile "q.tmp.1" "OLD"]

/-- A source file whose name is a glob pattern. -/
def globFS : FS := mkFS [mkFile "1.tmp.x" "one", mkFile "?" "q"] []

/-- A source directory `/d` that is used as target directory as well. -/
def aliasFS : FS := fun d =>
  if d = "/d" then
    some { writable := true,
           entries := [mkFile "B" "1", mkFile "aB" "2", mkFile "ab" "3", mkFile "b" "4"] }
  else none

/-- A source directory whose second file cannot be read. -/
def unreadableFS : FS :=
  mkFS [mkFile "a" "A", { mkFile "b" "B" with readable := false }, mkFile "c" "C"] []

/-! ## Auxiliary notions used in the statements and proofs -/

/-- One round of the outer loop for a writable target directory. -/
def pass (src t : String) (u : Bool) (skip : List Name) (pfx : Name) (fs : FS) :
    FS × Option Error :=
  match osReadDir fs src with
  | .error e => (fs, some e)
  | .ok files => copyFiles src t u skip pfx files fs

/-- The transition touches only directory `t` and leaves every directory's existence
and writability as they were. -/
def Touch (t : String) (fs fs' : FS) : Prop :=
  (∀ x, x ≠ t → fs' x = fs x) ∧ ∀ x, (fs' x).map Dir.writable = (fs x).map Dir.writable

/-- The run meets a fatal failure with error `e`: the target directories before some
writable `t` are processed without error, and then either listing `srcDir` fails with
`e`, or the source entries before some `f` are processed without error, `f` goes on to
be copied, and its atomic copy fails with `e`. -/
def FatalAt (srcDir : String) (targetDirs : List String) (updateBinaries : Bool)
    (skipBinaries : List Name) (binariesPrefix : Name) (fs : FS) (e : Error) : Prop :=
  ∃ ds1 t ds2 fsT, targetDirs = ds1 ++ t :: ds2 ∧
    copyBinaries srcDir ds1 updateBinaries skipBinaries binariesPrefix fs = (fsT, none) ∧
    isDirWriteable fsT t = none ∧
    (osReadDir fsT srcDir = .error e ∨
      ∃ l1 f l2 fsF, osReadDir fsT srcDir = .ok (l1 ++ f :: l2) ∧
        copyFiles srcDir t updateBinaries skipBinaries binariesPrefix l1 fsT = (fsF, none) ∧
        proceeds t updateBinaries skipBinaries binariesPrefix fsF f = true ∧
        atomicCopy (removeStaleTemps fsF t (binariesPrefix ++ f.name)) srcDir f.name t
          (binariesPrefix ++ f.name) = .error e)

/-- The state `fs` of a run started in `fs0`: the source directory and the writability
of every directory are as at the start. -/
def Steady (src : String) (fs0 fs : FS) : Prop :=
  fs src = fs0 src ∧ ∀ x, (fs x).map Dir.writable = (fs0 x).map Dir.writable

/-- A regular file directly in `srcDir` whose name is not in `skipBinaries`. -/
def SourceFile (fs : FS) (srcDir : String) (skipBinaries : List Name) (f : Entry) : Prop :=
  ∃ dir, fs srcDir = some dir ∧ f ∈ dir.entries ∧ f.isDir = false ∧ f.name ∉ skipBinaries

/-- The effect of a run, whose source directory is not a target directory, on an
entry `n` of a directory `d`: it is as before the run, or `d` is a writable target
directory and the entry was removed as a stale temp file of the destination of a
source file, or it is the destination of a source file and holds its contents. -/
def Effect (src : String) (ds : List String) (skip : List Name) (pfx : Name) (fs0 fs : FS)
    (d : String) (n : Name) : Prop :=
  fs.entry d n = fs0.entry d n ∨
    (d ∈ ds ∧ isDirWriteable fs0 d = none ∧ ∃ f, SourceFile fs0 src skip f ∧
      ((tmpMatch (pfx ++ f.name) n = true ∧ fs.entry d n = none) ∨
        (n = pfx ++ f.name ∧ fs0.entry src f.name = some f ∧
          fs.entry d n = some (installed n f.contents))))

/-- The characters that make a Go pattern non-literal (`hasMeta` of path/filepath). -/
def isMeta (c : Char) : Bool :=
  decide (c = '*') || decide (c = '?') || decide (c = '[') || decide (c = '\\')

/-- A name free of pattern metacharacters. -/
def plainName (s : Name) : Bool := s.all (fun c => !isMeta c)

/-- The literal temp-file prefix of a destination name: `targetFilename + ".tmp."`. -/
def tmpPrefix (targetFilename : Name) : Name :=
  targetFilename ++ ['.', 't', 'm', 'p', '.']

/-- The destination of the source file called `f` in directory `t` holds the contents
that the source file had in `fs0`. -/
def Fresh (fs0 : FS) (src : String) (pfx : Name) (fs : FS) (t : String) (f : Name) : Prop :=
  ∃ s, fs0.entry src f = some s ∧ fs.entry t (pfx ++ f) = some (installed (pfx ++ f) s.contents)

/-- Directory `t` is settled: the source directory exists and every regular,
non-skipped source file has its destination in `t`. -/
def Settled (fs0 : FS) (src : String) (skip : List Name) (pfx : Name) (fs : FS)
    (t : String) : Prop :=
  (∃ dir, fs0 src = some dir) ∧
    ∀ f, SourceFile fs0 src skip f → fs.entry t (pfx ++ f.name) ≠ none

/-- The destination names for which the inner loop goes on to the stale-temp cleanup
and the atomic copy (lines 57-69), in order. -/
def fileDestinations (srcDir targetDir : String) (updateBinaries : Bool)
    (skipBinaries : List Name) (binariesPrefix : Name) : List Entry → FS → List Name
  | [], _ => []
  | f :: rest, fs =>
    (if proceeds targetDir updateBinaries skipBinaries binariesPrefix fs f = true then
        [binariesPrefix ++ f.name] else []) ++
      (if (copyFile srcDir targetDir updateBinaries skipBinaries binariesPrefix fs f).2 = none then
        fileDestinations srcDir targetDir updateBinaries skipBinaries binariesPrefix rest
          (copyFile srcDir targetDir updateBinaries skipBinaries binariesPrefix fs f).1
      else [])

/-- The pairs of a target directory and a destination name that a run of
`copyBinaries` goes on to clean up and copy. -/
def runDestinations (srcDir : String) (targetDirs : List String) (updateBinaries : Bool)
    (skipBinaries : List Name) (binariesPrefix : Name) (fs : FS) : List (String × Name) :=
  match targetDirs with
  | [] => []
  | targetDir :: rest =>
    if isDirWriteable fs targetDir = none then
      match osReadDir fs srcDir with
      | .error _ => []
      | .ok files =>
        (fileDestinations srcDir targetDir updateBinaries skipBinaries binariesPrefix files
            fs).map (fun D => (targetDir, D)) ++
          (if (copyFiles srcDir targetDir updateBinaries skipBinaries binariesPrefix files
              fs).2 = none then
            runDestinations srcDir rest updateBinaries skipBinaries binariesPrefix
              (copyFiles srcDir targetDir updateBinaries skipBinaries binariesPrefix files fs).1
          else [])
    else runDestinations srcDir rest updateBinaries skipBinaries binariesPrefix fs

/-! ## The domain of the embedding -/

/-- A character that a file name can hold: neither the path separator nor NUL. -/
def nameChar (c : Char) : Bool := !decide (c = '/') && !decide (c.toNat = 0)

/-- A fragment of a file name: a string of file-name characters. -/
def fragment (s : Name) : Bool := s.all nameChar

/-- A file name as a directory can hold it: a non-empty fragment other than `.` and
`..`. -/
def validName (n : Name) : Bool :=
  !n.isEmpty && fragment n && !decide (n = ['.']) && !decide (n = ['.', '.'])

/-- The components of a path: the pieces between its separators. -/
def components : List Char → List Name
  | [] => [[]]
  | c :: cs =>
    if c = '/' then [] :: components cs
    else
      match components cs with
      | [] => [[c]]
      | p :: ps => (c :: p) :: ps

/-- A clean absolute path other than the root: a separator before each of one or more
valid names.  `filepath.Clean` leaves such a path as it is. -/
def cleanPath (d : String) : Bool :=
  match components d.toList with
  | [] :: p :: ps => (p :: ps).all validName
  | _ => false

/-- Does the path `d` lie below the directory with path `t`? -/
def below (t d : String) : Bool := (t.toList ++ ['/']).isPrefixOf d.toList

/-- The names of the entries of directory `d`. -/
def entryNames (fs : FS) (d : String) : List Name :=
  match fs d with
  | none => []
  | some dir => dir.entries.map Entry.name

/-- The domain on which the flat file system follows the path handling of the Go
code: `binariesPrefix` is a file-name fragment; `srcDir` and the target directories
are clean absolute paths, those of the target directories without glob
metacharacters; none of these directories lies below another; and their entries have
valid names, each name once. -/
def inScope (srcDir : String) (targetDirs : List String) (binariesPrefix : Name) (fs : FS) :
    Bool :=
  fragment binariesPrefix &&
    (srcDir :: targetDirs).all cleanPath &&
    targetDirs.all (fun t => plainName t.toList) &&
    (srcDir :: targetDirs).all (fun a => (srcDir :: targetDirs).all (fun d => !below a d)) &&
    (srcDir :: targetDirs).all
      (fun d => (entryNames fs d).all validName && decide (entryNames fs d).Nodup)

/-- An ASCII name. -/
def asciiName (n : Name) : Bool := n.all (fun c => decide (c.toNat < 128))

/-- All names of the run are ASCII: the prefix and the names of the entries of `srcDir`
and of the target directories.  The destination names of the run are then ASCII as
well. -/
def asciiRun (srcDir : String) (targetDirs : List String) (binariesPrefix : Name) (fs : FS) :
    Bool :=
  asciiName binariesPrefix &&
    (srcDir :: targetDirs).all (fun d => (entryNames fs d).all asciiName)

/-! ## Entries: lookup after erase and put -/

theorem lookup_name {es : List Entry} {n : Name} {e : Entry} (h : lookup es n = some e) :
    e.name = n := by
  have := List.find?_some h
  simpa using this

theorem lookup_mem {es : List Entry} {n : Name} {e : Entry} (h : lookup es n = some e) :
    e ∈ es := List.mem_of_find?_eq_some h

theorem lookup_eraseName_self (es : List Entry) (n : Name) : lookup (eraseName es n) n = none := by
  simp [lookup, eraseName, List.find?_eq_none]

theorem lookup_cons (e : Entry) (es : List Entry) (m : Name) :
    lookup (e :: es) m = if e.name = m then some e else lookup es m := by
  by_cases h : e.name = m <;> simp [lookup, List.find?_cons, h]

theorem eraseName_cons (e : Entry) (es : List Entry) (n : Name) :
    eraseName (e :: es) n = if e.name = n then eraseName es n else e :: eraseName es n := by
  by_cases h : e.name = n <;> simp [eraseName, List.filter_cons, h]

theorem lookup_eraseName_ne (es : List Entry) {n m : Name} (h : m ≠ n) :
    lookup (eraseName es n) m = lookup es m := by
  induction es with
  | nil => rfl
  | cons e es ih =>
    rw [eraseName_cons, lookup_cons]
    by_cases he : e.name = n
    · have hm : ¬ e.name = m := fun h2 => h (h2.symm.trans he)
      rw [if_pos he, if_neg hm, ih]
    · rw [if_neg he, lookup_cons, ih]

theorem lookup_putEntry_self (es : List Entry) (e : Entry) :
    lookup (putEntry es e) e.name = some e := by
  simp [lookup, putEntry]

theorem lookup_putEntry_ne (es : List Entry) (e : Entry) {m : Name} (h : m ≠ e.name) :
    lookup (putEntry es e) m = lookup es m := by
  have h2 : ¬ e.name = m := fun h3 => h h3.symm
  have := lookup_eraseName_ne es h
  simp only [lookup, putEntry] at this ⊢
  simp [List.find?_cons, h2, this]

/-! ## File system: frame lemmas of the primitives -/

theorem setEntries_other (fs : FS) (d : String) (es : List Entry) {x : String} (h : x ≠ d) :
    fs.setEntries d es x = fs x := by
  simp [FS.setEntries, h]

theorem setEntries_writable (fs : FS) (d : String) (es : List Entry) (x : String) :
    (fs.setEntries d es x).map Dir.writable = (fs x).map Dir.writable := by
  by_cases h : x = d
  · subst h
    cases hx : fs x <;> simp [FS.setEntries, hx]
  · simp [FS.setEntries, h]

theorem setEntries_entry_same (fs : FS) (d : String) (es : List Entry) (dir : Dir)
    (h : fs d = some dir) (m : Name) : (fs.setEntries d es).entry d m = lookup es m := by
  simp [FS.entry, FS.setEntries, h]

theorem entry_congr {fs fs' : FS} {x : String} (h : fs' x = fs x) (m : Name) :
    fs'.entry x m = fs.entry x m := by
  simp [FS.entry, h]

theorem Touch.refl (t : String) (fs : FS) : Touch t fs fs := ⟨fun _ _ => rfl, fun _ => rfl⟩

theorem Touch.trans {t : String} {a b c : FS} (h1 : Touch t a b) (h2 : Touch t b c) :
    Touch t a c :=
  ⟨fun x hx => (h2.1 x hx).trans (h1.1 x hx), fun x => (h2.2 x).trans (h1.2 x)⟩

theorem touch_setEntries (fs : FS) (d : String) (es : List Entry) :
    Touch d fs (fs.setEntries d es) :=
  ⟨fun _ hx => setEntries_other fs d es hx, fun x => setEntries_writable fs d es x⟩

theorem isDirWriteable_congr {fs fs' : FS} {x : String}
    (h : (fs' x).map Dir.writable = (fs x).map Dir.writable) :
    isDirWriteable fs' x = isDirWriteable fs x := by
  unfold isDirWriteable
  cases h1 : fs' x <;> cases h2 : fs x <;> simp [h1, h2] at h ⊢
  simp [h]

theorem touch_osRemove (fs : FS) (d : String) (n : Name) : Touch d fs (osRemove fs d n).1 := by
  unfold osRemove
  split
  · exact Touch.refl _ _
  · split
    · exact Touch.refl _ _
    · split
      · exact touch_setEntries _ _ _
      · exact Touch.refl _ _

/-- What `os.Remove` does to an entry of the directory: it stays, or it is the one
removed. -/
theorem osRemove_entry (fs : FS) (d : String) (n m : Name) :
    (osRemove fs d n).1.entry d m = fs.entry d m ∨
      (m = n ∧ (osRemove fs d n).1.entry d m = none) := by
  unfold osRemove
  split
  · exact Or.inl rfl
  · rename_i dir hd
    split
    · exact Or.inl rfl
    · split
      · by_cases hm : m = n
        · right
          subst hm
          exact ⟨rfl, by rw [setEntries_entry_same fs d _ dir hd]; exact lookup_eraseName_self _ _⟩
        · left
          rw [setEntries_entry_same fs d _ dir hd, lookup_eraseName_ne _ hm]
          simp [FS.entry, hd]
      · exact Or.inl rfl

theorem touch_foldl_remove (d : String) (ns : List Name) (fs : FS) :
    Touch d fs (ns.foldl (fun s m => (osRemove s d m).1) fs) := by
  induction ns generalizing fs with
  | nil => exact Touch.refl _ _
  | cons n ns ih => exact (touch_osRemove fs d n).trans (ih _)

/-- An entry after a series of removals: as before, or one of those removed. -/
theorem foldl_remove_entry (d : String) (ns : List Name) (fs : FS) (m : Name) :
    (ns.foldl (fun s m => (osRemove s d m).1) fs).entry d m = fs.entry d m ∨
      (m ∈ ns ∧ (ns.foldl (fun s m => (osRemove s d m).1) fs).entry d m = none) := by
  induction ns generalizing fs with
  | nil => exact Or.inl rfl
  | cons n ns ih =>
    simp only [List.foldl_cons]
    rcases ih (osRemove fs d n).1 with h | ⟨hm, h⟩
    · rcases osRemove_entry fs d n m with h2 | ⟨h2, h3⟩
      · exact Or.inl (h.trans h2)
      · exact Or.inr ⟨by simp [h2], h.trans h3⟩
    · exact Or.inr ⟨List.mem_cons_of_mem _ hm, h⟩

theorem touch_removeStaleTemps (fs : FS) (t : String) (tf : Name) :
    Touch t fs (removeStaleTemps fs t tf) := touch_foldl_remove t _ fs

theorem mem_filepathGlob {fs : FS} {t : String} {tf m : Name} (h : m ∈ filepathGlob fs t tf) :
    tmpMatch tf m = true := by
  unfold filepathGlob at h
  split at h
  · simp at h
  · exact (List.mem_filter.mp h).2

/-- An entry of the target directory after the cleanup: as before, or removed as a
match of the temp-file pattern. -/
theorem removeStaleTemps_entry (fs : FS) (t : String) (tf m : Name) :
    (removeStaleTemps fs t tf).entry t m = fs.entry t m ∨
      (tmpMatch tf m = true ∧ (removeStaleTemps fs t tf).entry t m = none) := by
  rcases foldl_remove_entry t (filepathGlob fs t tf) fs m with h | ⟨h1, h2⟩
  · exact Or.inl h
  · exact Or.inr ⟨mem_filepathGlob h1, h2⟩

/-- A successful atomic copy: only the target directory is touched, the destination
holds the contents of the source file, and the other entries stay. -/
theorem atomicCopy_ok {fs fs2 : FS} {src t : String} {name tf : Name}
    (h : atomicCopy fs src name t tf = .ok fs2) :
    Touch t fs fs2 ∧ isDirWriteable fs t = none ∧
      (∃ s, fs.entry src name = some s ∧ s.isDir = false ∧ s.readable = true ∧
        fs2.entry t tf = some (installed tf s.contents)) ∧
      ∀ m, m ≠ tf → fs2.entry t m = fs.entry t m := by
  unfold atomicCopy at h
  split at h
  · cases h
  · rename_i s hs
    split at h
    · cases h
    · rename_i hreg
      simp only [Bool.or_eq_true, Bool.not_eq_true', not_or, Bool.not_eq_true,
        Bool.not_eq_false] at hreg
      split at h
      · cases h
      · rename_i td htd
        split at h
        · cases h
        · rename_i hw
          simp only [Bool.not_eq_true', Bool.not_eq_false] at hw
          have key : fs2 = fs.setEntries t (putEntry td.entries (installed tf s.contents)) := by
            split at h
            · cases h; rfl
            · split at h
              · cases h
              · cases h; rfl
          subst key
          refine ⟨touch_setEntries _ _ _, by simp [isDirWriteable, htd, hw],
            ⟨s, hs, hreg.1, hreg.2, ?_⟩, ?_⟩
          · rw [setEntries_entry_same fs t _ td htd]
            exact lookup_putEntry_self _ (installed tf s.contents)
          · intro m hm
            rw [setEntries_entry_same fs t _ td htd]
            rw [lookup_putEntry_ne _ (installed tf s.contents) hm]
            simp [FS.entry, htd]

theorem copyFile_of_not_proceeds {src t : String} {u : Bool} {skip : List Name} {pfx : Name}
    {fs : FS} {f : Entry} (h : proceeds t u skip pfx fs f = false) :
    copyFile src t u skip pfx fs f = (fs, none) := by
  unfold copyFile
  by_cases h1 : f.isDir = true
  · simp [h1]
  · by_cases h2 : f.name ∈ skip
    · simp [h1, h2]
    · by_cases h3 : (osStat fs t (pfx ++ f.name) && !u) = true
      · simp [h1, h2, h3]
      · simp [proceeds, h1, h2] at h
        simp [h] at h3

theorem copyFile_of_proceeds {src t : String} {u : Bool} {skip : List Name} {pfx : Name}
    {fs : FS} {f : Entry} (h : proceeds t u skip pfx fs f = true) :
    copyFile src t u skip pfx fs f =
      match atomicCopy (removeStaleTemps fs t (pfx ++ f.name)) src f.name t (pfx ++ f.name) with
      | .error e => (removeStaleTemps fs t (pfx ++ f.name), some e)
      | .ok fs2 => (fs2, none) := by
  unfold copyFile
  simp only [proceeds, Bool.and_eq_true, Bool.not_eq_true', decide_eq_false_iff_not] at h
  obtain ⟨⟨h1, h2⟩, h3⟩ := h
  have h3' : ¬ ((osStat fs t (pfx ++ f.name) && !u) = true) := by simp [h3]
  simp only [h1, h2, h3', Bool.false_eq_true, if_false]

theorem proceeds_iff {t : String} {u : Bool} {skip : List Name} {pfx : Name} {fs : FS}
    {f : Entry} : proceeds t u skip pfx fs f = true ↔
      f.isDir = false ∧ f.name ∉ skip ∧ (u = true ∨ fs.entry t (pfx ++ f.name) = none) := by
  simp only [proceeds, osStat, Bool.and_eq_true, Bool.not_eq_true', decide_eq_false_iff_not]
  constructor
  · rintro ⟨⟨h1, h2⟩, h3⟩
    refine ⟨h1, h2, ?_⟩
    cases u
    · right
      simpa using h3
    · exact Or.inl rfl
  · rintro ⟨h1, h2, h3⟩
    refine ⟨⟨h1, h2⟩, ?_⟩
    rcases h3 with h3 | h3 <;> simp [h3]

theorem touch_copyFile (src t : String) (u : Bool) (skip : List Name) (pfx : Name) (fs : FS)
    (f : Entry) : Touch t fs (copyFile src t u skip pfx fs f).1 := by
  cases hp : proceeds t u skip pfx fs f
  · rw [copyFile_of_not_proceeds hp]
    exact Touch.refl _ _
  · rw [copyFile_of_proceeds hp]
    split
    · exact touch_removeStaleTemps _ _ _
    · rename_i fs2 h
      exact (touch_removeStaleTemps _ _ _).trans (atomicCopy_ok h).1

/-- What one pass of the loop body does to an entry `m` of the target directory: it
stays as it was, or it is removed as a stale temp file of the destination, or it is
the destination and now holds the contents of the source file. -/
theorem copyFile_entry (src t : String) (u : Bool) (skip : List Name) (pfx : Name) (fs : FS)
    (f : Entry) (m : Name) :
    (copyFile src t u skip pfx fs f).1.entry t m = fs.entry t m ∨
    (proceeds t u skip pfx fs f = true ∧ tmpMatch (pfx ++ f.name) m = true ∧
      (copyFile src t u skip pfx fs f).1.entry t m = none) ∨
    (proceeds t u skip pfx fs f = true ∧ m = pfx ++ f.name ∧
      (copyFile src t u skip pfx fs f).2 = none ∧
      ∃ s, (removeStaleTemps fs t (pfx ++ f.name)).entry src f.name = some s ∧
        s.isDir = false ∧
        (copyFile src t u skip pfx fs f).1.entry t m = some (installed m s.contents)) := by
  cases hp : proceeds t u skip pfx fs f
  · rw [copyFile_of_not_proceeds hp]
    exact Or.inl rfl
  · rw [copyFile_of_proceeds hp]
    split
    · rcases removeStaleTemps_entry fs t (pfx ++ f.name) m with h | ⟨h1, h2⟩
      · exact Or.inl h
      · exact Or.inr (Or.inl ⟨by trivial, h1, h2⟩)
    · rename_i fs2 h
      obtain ⟨_, _, ⟨s, hs, hreg, _, hinst⟩, hrest⟩ := atomicCopy_ok h
      by_cases hm : m = pfx ++ f.name
      · subst hm
        exact Or.inr (Or.inr ⟨by trivial, rfl, rfl, s, hs, hreg, hinst⟩)
      · simp only
        rw [hrest m hm]
        rcases removeStaleTemps_entry fs t (pfx ++ f.name) m with h | ⟨h1, h2⟩
        · exact Or.inl h
        · exact Or.inr (Or.inl ⟨by trivial, h1, h2⟩)

/-! ## Control flow of the two loops -/

theorem copyFiles_cons (src t : String) (u : Bool) (skip : List Name) (pfx : Name)
    (f : Entry) (rest : List Entry) (fs : FS) :
    copyFiles src t u skip pfx (f :: rest) fs =
      if (copyFile src t u skip pfx fs f).2 = none then
        copyFiles src t u skip pfx rest (copyFile src t u skip pfx fs f).1
      else copyFile src t u skip pfx fs f := by
  rw [copyFiles]
  rcases h : copyFile src t u skip pfx fs f with ⟨fs1, _ | e⟩ <;> simp

theorem copyFiles_append (src t : String) (u : Bool) (skip : List Name) (pfx : Name)
    (l1 l2 : List Entry) (fs : FS) :
    copyFiles src t u skip pfx (l1 ++ l2) fs =
      if (copyFiles src t u skip pfx l1 fs).2 = none then
        copyFiles src t u skip pfx l2 (copyFiles src t u skip pfx l1 fs).1
      else copyFiles src t u skip pfx l1 fs := by
  induction l1 generalizing fs with
  | nil => simp [copyFiles]
  | cons f l1 ih =>
    rw [List.cons_append, copyFiles_cons, copyFiles_cons]
    by_cases h : (copyFile src t u skip pfx fs f).2 = none
    · rw [if_pos h, if_pos h, ih]
    · rw [if_neg h, if_neg h, if_neg h]

theorem copyBinaries_cons (src t : String) (rest : List String) (u : Bool) (skip : List Name)
    (pfx : Name) (fs : FS) :
    copyBinaries src (t :: rest) u skip pfx fs =
      if isDirWriteable fs t = none then
        if (pass src t u skip pfx fs).2 = none then
          copyBinaries src rest u skip pfx (pass src t u skip pfx fs).1
        else pass src t u skip pfx fs
      else copyBinaries src rest u skip pfx fs := by
  rw [copyBinaries]
  cases hw : isDirWriteable fs t with
  | some e => simp
  | none =>
    simp only [if_true, pass]
    cases hr : osReadDir fs src with
    | error e => simp
    | ok files =>
      simp only
      rcases h : copyFiles src t u skip pfx files fs with ⟨fs1, _ | e⟩ <;> simp

theorem copyBinaries_append (src : String) (ds1 ds2 : List String) (u : Bool)
    (skip : List Name) (pfx : Name) (fs : FS) :
    copyBinaries src (ds1 ++ ds2) u skip pfx fs =
      if (copyBinaries src ds1 u skip pfx fs).2 = none then
        copyBinaries src ds2 u skip pfx (copyBinaries src ds1 u skip pfx fs).1
      else copyBinaries src ds1 u skip pfx fs := by
  induction ds1 generalizing fs with
  | nil => simp [copyBinaries]
  | cons t ds1 ih =>
    rw [List.cons_append, copyBinaries_cons, copyBinaries_cons]
    by_cases hw : isDirWriteable fs t = none
    · rw [if_pos hw, if_pos hw]
      by_cases h : (pass src t u skip pfx fs).2 = none
      · rw [if_pos h, if_pos h, ih]
      · rw [if_neg h, if_neg h, if_neg h]
    · rw [if_neg hw, if_neg hw, ih]

theorem touch_copyFiles (src t : String) (u : Bool) (skip : List Name) (pfx : Name)
    (files : List Entry) (fs : FS) : Touch t fs (copyFiles src t u skip pfx files fs).1 := by
  induction files generalizing fs with
  | nil => exact Touch.refl _ _
  | cons f rest ih =>
    rw [copyFiles_cons]
    by_cases h : (copyFile src t u skip pfx fs f).2 = none
    · rw [if_pos h]
      exact (touch_copyFile src t u skip pfx fs f).trans (ih _)
    · rw [if_neg h]
      exact touch_copyFile src t u skip pfx fs f

theorem touch_pass (src t : String) (u : Bool) (skip : List Name) (pfx : Name) (fs : FS) :
    Touch t fs (pass src t u skip pfx fs).1 := by
  unfold pass
  split
  · exact Touch.refl _ _
  · exact touch_copyFiles _ _ _ _ _ _ _

/-- A run leaves the existence and writability of every directory as they were, and
changes no directory that is not a writable element of `targetDirs`. -/
theorem copyBinaries_frame (src : String) (ds : List String) (u : Bool) (skip : List Name)
    (pfx : Name) (fs : FS) :
    (∀ x, ((copyBinaries src ds u skip pfx fs).1 x).map Dir.writable =
        (fs x).map Dir.writable) ∧
    ∀ x, (x ∉ ds ∨ isDirWriteable fs x ≠ none) →
      (copyBinaries src ds u skip pfx fs).1 x = fs x := by
  induction ds generalizing fs with
  | nil => exact ⟨fun _ => rfl, fun _ _ => rfl⟩
  | cons t rest ih =>
    rw [copyBinaries_cons]
    have hp := touch_pass src t u skip pfx fs
    have hx : ∀ x, (x ∉ t :: rest ∨ isDirWriteable fs x ≠ none) →
        isDirWriteable fs t = none → x ≠ t := by
      intro x hx hw hxt
      subst hxt
      rcases hx with hx | hx
      · exact hx (List.mem_cons_self _ _)
      · exact hx hw
    by_cases hw : isDirWriteable fs t = none
    · rw [if_pos hw]
      by_cases h : (pass src t u skip pfx fs).2 = none
      · rw [if_pos h]
        obtain ⟨ih1, ih2⟩ := ih (pass src t u skip pfx fs).1
        refine ⟨fun x => (ih1 x).trans (hp.2 x), fun x hxx => ?_⟩
        have hne := hx x hxx hw
        rw [ih2 x, hp.1 x hne]
        rcases hxx with hxx | hxx
        · exact Or.inl (fun hm => hxx (List.mem_cons_of_mem _ hm))
        · right
          rw [isDirWriteable_congr (hp.2 x)]
          exact hxx
      · rw [if_neg h]
        exact ⟨hp.2, fun x hxx => hp.1 x (hx x hxx hw)⟩
    · rw [if_neg hw]
      obtain ⟨ih1, ih2⟩ := ih fs
      refine ⟨ih1, fun x hxx => ih2 x ?_⟩
      rcases hxx with hxx | hxx
      · exact Or.inl (fun hm => hxx (List.mem_cons_of_mem _ hm))
      · exact Or.inr hxx

theorem copyBinaries_filter_writable (src : String) (ds : List String) (u : Bool)
    (skip : List Name) (pfx : Name) (fs0 fs : FS)
    (hw : ∀ x, (fs x).map Dir.writable = (fs0 x).map Dir.writable) :
    copyBinaries src ds u skip pfx fs =
      copyBinaries src (ds.filter (fun d => (isDirWriteable fs0 d).isNone)) u skip pfx fs := by
  induction ds generalizing fs with
  | nil => rfl
  | cons t rest ih =>
    have e1 : isDirWriteable fs t = isDirWriteable fs0 t := isDirWriteable_congr (hw t)
    by_cases h : isDirWriteable fs0 t = none
    · have hf : (t :: rest).filter (fun d => (isDirWriteable fs0 d).isNone) =
          t :: rest.filter (fun d => (isDirWriteable fs0 d).isNone) := by
        simp [List.filter_cons, h]
      rw [hf, copyBinaries_cons, copyBinaries_cons, e1, if_pos h, if_pos h]
      by_cases hp : (pass src t u skip pfx fs).2 = none
      · rw [if_pos hp, if_pos hp]
        exact ih _ (fun x => ((touch_pass src t u skip pfx fs).2 x).trans (hw x))
      · rw [if_neg hp, if_neg hp]
    · have hf : (t :: rest).filter (fun d => (isDirWriteable fs0 d).isNone) =
          rest.filter (fun d => (isDirWriteable fs0 d).isNone) := by
        cases hh : isDirWriteable fs0 t with
        | none => exact absurd hh h
        | some e => simp [List.filter_cons, hh]
      rw [hf, copyBinaries_cons, e1, if_neg h]
      exact ih _ hw

theorem copyBinaries_all_unwritable (src : String) (ds : List String) (u : Bool)
    (skip : List Name) (pfx : Name) (fs : FS) (h : ∀ d ∈ ds, isDirWriteable fs d ≠ none) :
    copyBinaries src ds u skip pfx fs = (fs, none) := by
  induction ds with
  | nil => rfl
  | cons t rest ih =>
    rw [copyBinaries_cons, if_neg (h t (List.mem_cons_self _ _))]
    exact ih (fun d hd => h d (List.mem_cons_of_mem _ hd))

/-! ## Errors -/

theorem copyFile_error_iff (src t : String) (u : Bool) (skip : List Name) (pfx : Name)
    (fs : FS) (f : Entry) (e : Error) :
    (copyFile src t u skip pfx fs f).2 = some e ↔
      proceeds t u skip pfx fs f = true ∧
        atomicCopy (removeStaleTemps fs t (pfx ++ f.name)) src f.name t (pfx ++ f.name)
          = .error e := by
  cases hp : proceeds t u skip pfx fs f
  · rw [copyFile_of_not_proceeds hp]
    simp
  · rw [copyFile_of_proceeds hp]
    cases hc : atomicCopy (removeStaleTemps fs t (pfx ++ f.name)) src f.name t (pfx ++ f.name)
      <;> simp

theorem copyFile_fails {src t : String} {u : Bool} {skip : List Name} {pfx : Name}
    {fs : FS} {f : Entry} {e : Error} (hp : proceeds t u skip pfx fs f = true)
    (hc : atomicCopy (removeStaleTemps fs t (pfx ++ f.name)) src f.name t (pfx ++ f.name)
      = .error e) :
    copyFile src t u skip pfx fs f = (removeStaleTemps fs t (pfx ++ f.name), some e) := by
  rw [copyFile_of_proceeds hp, hc]

/-- The inner loop stops at the first failing copy. -/
theorem copyFiles_fails {src t : String} {u : Bool} {skip : List Name} {pfx : Name}
    {fs fsF : FS} {l1 l2 : List Entry} {f : Entry} {e : Error}
    (h1 : copyFiles src t u skip pfx l1 fs = (fsF, none))
    (hp : proceeds t u skip pfx fsF f = true)
    (hc : atomicCopy (removeStaleTemps fsF t (pfx ++ f.name)) src f.name t (pfx ++ f.name)
      = .error e) :
    copyFiles src t u skip pfx (l1 ++ f :: l2) fs =
      (removeStaleTemps fsF t (pfx ++ f.name), some e) := by
  rw [copyFiles_append, h1]
  simp only [if_true]
  rw [copyFiles_cons, copyFile_fails hp hc]
  simp

/-- An error of the inner loop comes from a failing copy of an entry that the loop
reached without error. -/
theorem copyFiles_error {src t : String} {u : Bool} {skip : List Name} {pfx : Name}
    {files : List Entry} {fs : FS} {e : Error}
    (h : (copyFiles src t u skip pfx files fs).2 = some e) :
    ∃ l1 f l2 fsF, files = l1 ++ f :: l2 ∧ copyFiles src t u skip pfx l1 fs = (fsF, none) ∧
      proceeds t u skip pfx fsF f = true ∧
      atomicCopy (removeStaleTemps fsF t (pfx ++ f.name)) src f.name t (pfx ++ f.name)
        = .error e := by
  induction files generalizing fs with
  | nil => simp [copyFiles] at h
  | cons f rest ih =>
    rw [copyFiles_cons] at h
    by_cases h0 : (copyFile src t u skip pfx fs f).2 = none
    · rw [if_pos h0] at h
      obtain ⟨l1, g, l2, fsF, hl, hrun, hp, hc⟩ := ih h
      refine ⟨f :: l1, g, l2, fsF, by rw [hl]; rfl, ?_, hp, hc⟩
      rw [copyFiles_cons, if_pos h0, hrun]
    · rw [if_neg h0] at h
      obtain ⟨hp, hc⟩ := (copyFile_error_iff src t u skip pfx fs f e).mp h
      exact ⟨[], f, rest, fs, rfl, rfl, hp, hc⟩

theorem copyBinaries_fatal {src : String} {ds : List String} {u : Bool} {skip : List Name}
    {pfx : Name} {fs : FS} {e : Error} (h : FatalAt src ds u skip pfx fs e) :
    (copyBinaries src ds u skip pfx fs).2 = some e := by
  obtain ⟨ds1, t, ds2, fsT, hds, h1, hw, hf⟩ := h
  subst hds
  rw [copyBinaries_append, h1]
  simp only [if_true]
  rw [copyBinaries_cons, if_pos hw]
  rcases hf with hr | ⟨l1, f, l2, fsF, hr, h2, hp, hc⟩
  · have : pass src t u skip pfx fsT = (fsT, some e) := by simp [pass, hr]
    rw [this]
    simp
  · have : pass src t u skip pfx fsT = (removeStaleTemps fsF t (pfx ++ f.name), some e) := by
      simp only [pass, hr]
      exact copyFiles_fails h2 hp hc
    rw [this]
    simp

theorem copyBinaries_error {src : String} {ds : List String} {u : Bool} {skip : List Name}
    {pfx : Name} {fs : FS} {e : Error} (h : (copyBinaries src ds u skip pfx fs).2 = some e) :
    FatalAt src ds u skip pfx fs e := by
  induction ds generalizing fs with
  | nil => simp [copyBinaries] at h
  | cons t rest ih =>
    rw [copyBinaries_cons] at h
    by_cases hw : isDirWriteable fs t = none
    · rw [if_pos hw] at h
      by_cases hp : (pass src t u skip pfx fs).2 = none
      · rw [if_pos hp] at h
        obtain ⟨ds1, t', ds2, fsT, hds, h1, hw', hf⟩ := ih h
        refine ⟨t :: ds1, t', ds2, fsT, by rw [hds]; rfl, ?_, hw', hf⟩
        rw [copyBinaries_cons, if_pos hw, if_pos hp, h1]
      · rw [if_neg hp] at h
        refine ⟨[], t, rest, fs, rfl, rfl, hw, ?_⟩
        unfold pass at h
        split at h
        · rename_i e' hr
          simp only [Option.some.injEq] at h
          subst h
          exact Or.inl hr
        · rename_i files hr
          obtain ⟨l1, f, l2, fsF, hl, hrun, hpr, hc⟩ := copyFiles_error h
          subst hl
          exact Or.inr ⟨l1, f, l2, fsF, hr, hrun, hpr, hc⟩
    · rw [if_neg hw] at h
      obtain ⟨ds1, t', ds2, fsT, hds, h1, hw', hf⟩ := ih h
      refine ⟨t :: ds1, t', ds2, fsT, by rw [hds]; rfl, ?_, hw', hf⟩
      rw [copyBinaries_cons, if_neg hw, h1]

theorem atomicCopy_error_kind {fs : FS} {src t : String} {name tf : Name} {e : Error}
    (h : atomicCopy fs src name t tf = .error e) : e = .copy src name t tf := by
  unfold atomicCopy at h
  repeat' split at h
  all_goals first
    | (cases h; rfl)
    | cases h

theorem osReadDir_error_kind {fs : FS} {d : String} {e : Error}
    (h : osReadDir fs d = .error e) : e = .readDir d := by
  unfold osReadDir at h
  split at h
  · cases h; rfl
  · cases h

/-! ## Runs whose source directory is not a target directory -/

theorem mem_insertByName {e x : Entry} {es : List Entry} :
    x ∈ insertByName e es ↔ x = e ∨ x ∈ es := by
  induction es with
  | nil => simp [insertByName]
  | cons y ys ih =>
    unfold insertByName
    split
    · simp only [List.mem_cons]
    · simp only [List.mem_cons, ih]
      tauto

theorem mem_sortByName {x : Entry} {es : List Entry} : x ∈ sortByName es ↔ x ∈ es := by
  induction es with
  | nil => simp [sortByName]
  | cons y ys ih => simp only [sortByName, mem_insertByName, ih, List.mem_cons]

theorem Steady.step {src t : String} {fs0 fs fs' : FS} (h : Steady src fs0 fs)
    (ht : Touch t fs fs') (hne : src ≠ t) : Steady src fs0 fs' :=
  ⟨(ht.1 src hne).trans h.1, fun x => (ht.2 x).trans (h.2 x)⟩

/-- Induction over a run whose source directory is not among the target directories:
a property of the file system that holds at the start and is kept by every execution
of the loop body, for a source entry and a writable target directory, holds at the
end.  The source directory itself is unchanged. -/
theorem run_invariant {src : String} {ds : List String} {u : Bool} {skip : List Name}
    {pfx : Name} {fs0 : FS} (hsrc : src ∉ ds) (P : FS → Prop) (h0 : P fs0)
    (step : ∀ fs t f dir, P fs → Steady src fs0 fs → t ∈ ds → isDirWriteable fs0 t = none →
      fs0 src = some dir → f ∈ dir.entries → P (copyFile src t u skip pfx fs f).1) :
    P (copyBinaries src ds u skip pfx fs0).1 ∧
      Steady src fs0 (copyBinaries src ds u skip pfx fs0).1 := by
  have inner : ∀ (t : String) (dir : Dir), t ∈ ds → isDirWriteable fs0 t = none →
      fs0 src = some dir → ∀ (files : List Entry) (fs : FS), (∀ f ∈ files, f ∈ dir.entries) →
      P fs → Steady src fs0 fs →
      P (copyFiles src t u skip pfx files fs).1 ∧
        Steady src fs0 (copyFiles src t u skip pfx files fs).1 := by
    intro t dir ht hw hdir files
    induction files with
    | nil => intro fs _ hP hS; exact ⟨hP, hS⟩
    | cons f rest ih =>
      intro fs hmem hP hS
      have hne : src ≠ t := fun h => hsrc (h ▸ ht)
      have hP1 := step fs t f dir hP hS ht hw hdir (hmem f (List.mem_cons_self _ _))
      have hS1 := hS.step (touch_copyFile src t u skip pfx fs f) hne
      rw [copyFiles_cons]
      by_cases h : (copyFile src t u skip pfx fs f).2 = none
      · rw [if_pos h]
        exact ih _ (fun g hg => hmem g (List.mem_cons_of_mem _ hg)) hP1 hS1
      · rw [if_neg h]
        exact ⟨hP1, hS1⟩
  have outer : ∀ (ds' : List String), (∀ t ∈ ds', t ∈ ds) → ∀ fs : FS, P fs →
      Steady src fs0 fs →
      P (copyBinaries src ds' u skip pfx fs).1 ∧
        Steady src fs0 (copyBinaries src ds' u skip pfx fs).1 := by
    intro ds'
    induction ds' with
    | nil => intro _ fs hP hS; exact ⟨hP, hS⟩
    | cons t rest ih =>
      intro hsub fs hP hS
      have ht : t ∈ ds := hsub t (List.mem_cons_self _ _)
      have hrest : ∀ x ∈ rest, x ∈ ds := fun x hx => hsub x (List.mem_cons_of_mem _ hx)
      rw [copyBinaries_cons]
      by_cases hw : isDirWriteable fs t = none
      · rw [if_pos hw]
        have hw0 : isDirWriteable fs0 t = none := by
          rw [← isDirWriteable_congr (hS.2 t)]; exact hw
        have hpass : P (pass src t u skip pfx fs).1 ∧
            Steady src fs0 (pass src t u skip pfx fs).1 := by
          unfold pass osReadDir
          rw [hS.1]
          cases hdir : fs0 src with
          | none => exact ⟨hP, hS⟩
          | some dir =>
            exact inner t dir ht hw0 hdir (listing dir) fs
              (fun f hf => mem_sortByName.mp hf) hP hS
        by_cases h : (pass src t u skip pfx fs).2 = none
        · rw [if_pos h]
          exact ih hrest _ hpass.1 hpass.2
        · rw [if_neg h]
          exact hpass
      · rw [if_neg hw]
        exact ih hrest fs hP hS
  exact outer ds (fun _ h => h) fs0 h0 ⟨rfl, fun _ => rfl⟩

/-- An entry of the source directory seen from a state of a run whose source is not a
target: during the loop body for target `t` the source entry is the one at the start. -/
theorem steady_source_entry {src t : String} {fs0 fs : FS} (hS : Steady src fs0 fs)
    (hne : src ≠ t) (tf n : Name) :
    (removeStaleTemps fs t tf).entry src n = fs0.entry src n := by
  rw [entry_congr ((touch_removeStaleTemps fs t tf).1 src hne), entry_congr hS.1]

theorem run_effect (src : String) (ds : List String) (u : Bool) (skip : List Name)
    (pfx : Name) (fs0 : FS) (hsrc : src ∉ ds) (d : String) (n : Name) :
    Effect src ds skip pfx fs0 (copyBinaries src ds u skip pfx fs0).1 d n := by
  refine (run_invariant hsrc (fun fs => Effect src ds skip pfx fs0 fs d n) (Or.inl rfl)
    ?_).1
  intro fs t f dir hP hS ht hw hdir hf
  by_cases hd : d = t
  · subst hd
    have hne : src ≠ d := fun h => hsrc (h ▸ ht)
    rcases copyFile_entry src d u skip pfx fs f n with h | ⟨hp, hm, h⟩ | ⟨hp, hm, _, s, hs, hreg, h⟩
    · rcases hP with hP | hP
      · exact Or.inl (h.trans hP)
      · refine Or.inr ?_
        simp only [h]
        exact hP
    · obtain ⟨hreg, hskip, _⟩ := proceeds_iff.mp hp
      exact Or.inr ⟨ht, hw, f, ⟨dir, hdir, hf, hreg, hskip⟩, Or.inl ⟨hm, h⟩⟩
    · obtain ⟨_, hskip, _⟩ := proceeds_iff.mp hp
      rw [steady_source_entry hS hne] at hs
      have hsn : s.name = f.name := by
        unfold FS.entry at hs
        rw [hdir] at hs
        exact lookup_name hs
      have hsm : s ∈ dir.entries := by
        unfold FS.entry at hs
        rw [hdir] at hs
        exact lookup_mem hs
      refine Or.inr ⟨ht, hw, s, ⟨dir, hdir, hsm, hreg, hsn ▸ hskip⟩, Or.inr ⟨hsn ▸ hm, ?_, h⟩⟩
      rw [hsn]; exact hs
  · have := (touch_copyFile src t u skip pfx fs f).1 d hd
    rcases hP with hP | hP
    · exact Or.inl ((entry_congr this n).trans hP)
    · refine Or.inr ?_
      simp only [entry_congr this n]
      exact hP

/-! ## Literal patterns -/

theorem scanStep_plain {c : Char} (h : isMeta c = false) :
    scanStep .top c = some (.top, some (.lit c)) := by
  simp only [isMeta, Bool.or_eq_false_iff, decide_eq_false_iff_not] at h
  obtain ⟨⟨⟨h1, h2⟩, h3⟩, h4⟩ := h
  simp [scanStep, h1, h2, h3, h4]

theorem parsePattern_cons_lit (c : Char) (p : List Char) (h : isMeta c = false) :
    parsePattern .top (c :: p) = (parsePattern .top p).map (fun ts => Term.lit c :: ts) := by
  rw [parsePattern, scanStep_plain h]

theorem parsePattern_plain (l rest : List Char) (h : plainName l = true) :
    parsePattern .top (l ++ rest) =
      (parsePattern .top rest).map (fun ts => l.map Term.lit ++ ts) := by
  induction l with
  | nil => simp
  | cons c l ih =>
    simp only [plainName, List.all_cons, Bool.and_eq_true, Bool.not_eq_true'] at h
    have ih' := ih (by simpa [plainName] using h.2)
    rw [List.cons_append, parsePattern_cons_lit c _ h.1, ih']
    cases parsePattern .top rest <;> simp

theorem matchTerms_lit_cons (c : Char) (ts : List Term) (a : Char) (n : List Char) :
    matchTerms (Term.lit c :: ts) (a :: n) = (decide (c = a) && matchTerms ts n) := by
  rw [matchTerms]

theorem matchTerms_lits (l : List Char) (ts : List Term) (n : List Char) :
    matchTerms (l.map Term.lit ++ ts) n = true ↔ ∃ r, n = l ++ r ∧ matchTerms ts r = true := by
  induction l generalizing n with
  | nil => simp
  | cons c l ih =>
    cases n with
    | nil => simp [matchTerms]
    | cons a n =>
      rw [List.map_cons, List.cons_append, matchTerms_lit_cons, Bool.and_eq_true,
        decide_eq_true_eq, ih]
      constructor
      · rintro ⟨rfl, r, rfl, hr⟩
        exact ⟨r, rfl, hr⟩
      · rintro ⟨r, hr1, hr⟩
        rw [List.cons_append, List.cons.injEq] at hr1
        exact ⟨hr1.1.symm, r, hr1.2, hr⟩

theorem matchStar_end (r : List Char) :
    matchStar (fun s => s.isEmpty) r = true ↔ '/' ∉ r := by
  induction r with
  | nil => simp [matchStar]
  | cons c r ih =>
    rw [matchStar]
    simp only [List.isEmpty_cons, Bool.false_or, Bool.and_eq_true,
      Bool.not_eq_true', decide_eq_false_iff_not, ih, List.mem_cons, not_or]
    constructor
    · rintro ⟨h1, h2⟩
      exact ⟨fun h => h1 h.symm, h2⟩
    · rintro ⟨h1, h2⟩
      exact ⟨fun h => h1 h.symm, h2⟩

theorem matchTerms_star_end (r : List Char) :
    matchTerms [Term.star] r = true ↔ '/' ∉ r := by
  have : matchTerms [Term.star] r = matchStar (fun s => s.isEmpty) r := by
    rw [matchTerms]
    congr 1
  rw [this, matchStar_end]

/-- For a destination name free of metacharacters the temp-file pattern is literal: it
matches the names that start with `targetFilename + ".tmp."` and go on without a path
separator. -/
theorem tmpMatch_plain (tf n : Name) (h : plainName tf = true) :
    tmpMatch tf n = true ↔ ∃ r, n = tmpPrefix tf ++ r ∧ '/' ∉ r := by
  have hp : parsePattern .top (tmpPattern tf) =
      some (tf.map Term.lit ++ (['.', 't', 'm', 'p', '.'].map Term.lit ++ [Term.star])) := by
    unfold tmpPattern
    rw [parsePattern_plain tf _ h]
    rfl
  unfold tmpMatch filepathMatch
  rw [hp]
  simp only [Option.map_some', Option.getD_some]
  rw [matchTerms_lits]
  constructor
  · rintro ⟨r, rfl, hr⟩
    rw [matchTerms_lits] at hr
    obtain ⟨r2, rfl, hr2⟩ := hr
    refine ⟨r2, by simp [tmpPrefix], ?_⟩
    exact (matchTerms_star_end r2).mp hr2
  · rintro ⟨r, rfl, hr⟩
    refine ⟨['.', 't', 'm', 'p', '.'] ++ r, by simp [tmpPrefix], ?_⟩
    rw [matchTerms_lits]
    exact ⟨r, rfl, (matchTerms_star_end r).mpr hr⟩

theorem tmpMatch_plain_iff (tf n : Name) (h : plainName tf = true) (hn : '/' ∉ n) :
    tmpMatch tf n = true ↔ tmpPrefix tf <+: n := by
  rw [tmpMatch_plain tf n h]
  constructor
  · rintro ⟨r, rfl, _⟩
    exact List.prefix_append _ _
  · rintro ⟨r, rfl⟩
    exact ⟨r, rfl, fun hr => hn (List.mem_append_right _ hr)⟩

/-! ## Stale-temp cleanup -/

theorem lookup_isSome_iff (es : List Entry) (n : Name) :
    (lookup es n).isSome = true ↔ n ∈ es.map Entry.name := by
  simp [lookup, List.find?_isSome]

theorem entry_isSome_iff (fs : FS) (t : String) (n : Name) :
    (fs.entry t n).isSome = true ↔ ∃ dir, fs t = some dir ∧ n ∈ dir.entries.map Entry.name := by
  unfold FS.entry
  cases h : fs t with
  | none => simp
  | some dir => simp [lookup_isSome_iff]

theorem mem_filepathGlob_iff (fs : FS) (t : String) (tf n : Name) :
    n ∈ filepathGlob fs t tf ↔ (fs.entry t n).isSome = true ∧ tmpMatch tf n = true := by
  rw [entry_isSome_iff]
  unfold filepathGlob
  cases h : fs t with
  | none => simp
  | some dir =>
    simp only [List.mem_filter, List.mem_map, listing, mem_sortByName, Option.some.injEq,
      exists_eq_left']

theorem osRemove_success {fs : FS} {t : String} {n : Name} {e : Entry}
    (hw : isDirWriteable fs t = none) (he : fs.entry t n = some e) (hi : e.immutable = false) :
    (osRemove fs t n).1.entry t n = none := by
  unfold isDirWriteable at hw
  unfold FS.entry at he
  unfold osRemove
  cases hd : fs t with
  | none => rw [hd] at hw; cases hw
  | some dir =>
    rw [hd] at hw he
    simp only at hw he ⊢
    have hwr : dir.writable = true := by
      by_contra hc
      simp [hc] at hw
    rw [he]
    simp only [hwr, hi, Bool.not_false, Bool.and_self, if_true]
    rw [setEntries_entry_same fs t _ dir hd]
    exact lookup_eraseName_self _ _

/-- A removable entry among those handed to the deletions is gone afterwards. -/
theorem foldl_remove_gone (t : String) (ns : List Name) (fs : FS) (n : Name) (hn : n ∈ ns)
    (hw : isDirWriteable fs t = none)
    (hi : ∀ e, fs.entry t n = some e → e.immutable = false) :
    (ns.foldl (fun s m => (osRemove s t m).1) fs).entry t n = none := by
  induction ns generalizing fs with
  | nil => cases hn
  | cons m rest ih =>
    simp only [List.foldl_cons]
    have hw1 : isDirWriteable (osRemove fs t m).1 t = none := by
      rw [isDirWriteable_congr ((touch_osRemove fs t m).2 t)]; exact hw
    by_cases hm : n = m
    · subst hm
      have gone : (osRemove fs t n).1.entry t n = none := by
        cases he : fs.entry t n with
        | none =>
          rcases osRemove_entry fs t n n with h | ⟨_, h⟩
          · exact h.trans he
          · exact h
        | some e => exact osRemove_success hw he (hi e he)
      rcases foldl_remove_entry t rest (osRemove fs t n).1 n with h | ⟨_, h⟩
      · exact h.trans gone
      · exact h
    · have hrest : n ∈ rest := by
        rcases List.mem_cons.mp hn with h | h
        · exact absurd h hm
        · exact h
      have same : (osRemove fs t m).1.entry t n = fs.entry t n := by
        rcases osRemove_entry fs t m n with h | ⟨h, _⟩
        · exact h
        · exact absurd h hm
      exact ih _ hrest hw1 (fun e he => hi e (same ▸ he))

theorem tmpPrefix_ne (tf : Name) : ¬ tmpPrefix tf <+: tf := by
  intro h
  have := h.length_le
  simp [tmpPrefix] at this

/-! ## The order of the listing -/

theorem char_eq_of_toNat_eq {a b : Char} (h : a.toNat = b.toNat) : a = b := by
  rw [← Char.ofNat_toNat a, ← Char.ofNat_toNat b, h]

theorem nameLE_total (a b : Name) : nameLE a b = true ∨ nameLE b a = true := by
  induction a generalizing b with
  | nil => exact Or.inl (by simp [nameLE])
  | cons x xs ih =>
    cases b with
    | nil => exact Or.inr (by simp [nameLE])
    | cons y ys =>
      simp only [nameLE, Bool.or_eq_true, Bool.and_eq_true, decide_eq_true_eq]
      rcases Nat.lt_trichotomy x.toNat y.toNat with h | h | h
      · exact Or.inl (Or.inl h)
      · have hxy := char_eq_of_toNat_eq h
        rcases ih ys with h2 | h2
        · exact Or.inl (Or.inr ⟨hxy, h2⟩)
        · exact Or.inr (Or.inr ⟨hxy.symm, h2⟩)
      · exact Or.inr (Or.inl h)

theorem nameLE_trans {a b c : Name} (h1 : nameLE a b = true) (h2 : nameLE b c = true) :
    nameLE a c = true := by
  induction a generalizing b c with
  | nil => simp [nameLE]
  | cons x xs ih =>
    cases b with
    | nil => simp [nameLE] at h1
    | cons y ys =>
      cases c with
      | nil => simp [nameLE] at h2
      | cons z zs =>
        simp only [nameLE, Bool.or_eq_true, Bool.and_eq_true, decide_eq_true_eq] at h1 h2 ⊢
        rcases h1 with h1 | ⟨rfl, h1⟩
        · rcases h2 with h2 | ⟨rfl, _⟩
          · exact Or.inl (Nat.lt_trans h1 h2)
          · exact Or.inl h1
        · rcases h2 with h2 | ⟨rfl, h2⟩
          · exact Or.inl h2
          · exact Or.inr ⟨rfl, ih h1 h2⟩

/-- A name is not ordered before one of its proper prefixes. -/
theorem nameLE_append_self {g x : Name} (h : nameLE (g ++ x) g = true) : x = [] := by
  induction g with
  | nil =>
    cases x with
    | nil => rfl
    | cons c cs => simp [nameLE] at h
  | cons c g ih =>
    simp only [List.cons_append, nameLE, Nat.lt_irrefl, decide_False, Bool.false_or,
      Bool.and_eq_true, decide_eq_true_eq, true_and] at h
    exact ih h

theorem insertByName_sorted (e : Entry) (es : List Entry)
    (h : es.Pairwise (fun a b => nameLE a.name b.name = true)) :
    (insertByName e es).Pairwise (fun a b => nameLE a.name b.name = true) := by
  induction es with
  | nil => simp [insertByName]
  | cons x xs ih =>
    have h' := List.pairwise_cons.mp h
    unfold insertByName
    split
    · rename_i hex
      rw [List.pairwise_cons]
      refine ⟨fun y hy => ?_, h⟩
      rcases List.mem_cons.mp hy with rfl | hy
      · exact hex
      · exact nameLE_trans hex (h'.1 y hy)
    · rename_i hex
      have hxe : nameLE x.name e.name = true := by
        rcases nameLE_total x.name e.name with h1 | h1
        · exact h1
        · exact absurd h1 hex
      rw [List.pairwise_cons]
      refine ⟨fun y hy => ?_, ih h'.2⟩
      rcases mem_insertByName.mp hy with rfl | hy
      · exact hxe
      · exact h'.1 y hy

theorem sortByName_sorted (es : List Entry) :
    (sortByName es).Pairwise (fun a b => nameLE a.name b.name = true) := by
  induction es with
  | nil => simp [sortByName]
  | cons e es ih => exact insertByName_sorted e _ ih

/-- With literal patterns, the temp-file pattern of a destination cannot match the
destination of a source file that is not listed after it. -/
theorem tmpMatch_order {pfx f g : Name} (hplain : plainName (pfx ++ g) = true)
    (hle : nameLE f g = true) : tmpMatch (pfx ++ g) (pfx ++ f) = false := by
  cases h : tmpMatch (pfx ++ g) (pfx ++ f) with
  | false => rfl
  | true =>
    exfalso
    obtain ⟨r, hr, _⟩ := (tmpMatch_plain _ _ hplain).mp h
    have hf : f = g ++ (['.', 't', 'm', 'p', '.'] ++ r) := by
      have : pfx ++ f = pfx ++ (g ++ (['.', 't', 'm', 'p', '.'] ++ r)) := by
        rw [hr]; simp [tmpPrefix]
      exact List.append_cancel_left this
    rw [hf] at hle
    have := nameLE_append_self hle
    simp at this

/-! ## One round of the outer loop, with literal patterns -/

/-- A step of the loop body for an entry `g` not listed before the name `f` leaves the
destination of `f` as it was, or installs the source contents there. -/
theorem copyFile_keeps {src t : String} {u : Bool} {skip : List Name} {pfx : Name}
    {fs0 fs : FS} {f : Name} {g : Entry} (hne : src ≠ t) (hS : Steady src fs0 fs)
    (hplain : g.isDir = false → g.name ∉ skip → plainName (pfx ++ g.name) = true)
    (hle : nameLE f g.name = true) :
    (copyFile src t u skip pfx fs g).1.entry t (pfx ++ f) = fs.entry t (pfx ++ f) ∨
      Fresh fs0 src pfx (copyFile src t u skip pfx fs g).1 t f := by
  rcases copyFile_entry src t u skip pfx fs g (pfx ++ f) with h | ⟨hp, hm, _⟩ |
    ⟨_, hm, _, s, hs, _, h⟩
  · exact Or.inl h
  · obtain ⟨hreg, hskip, _⟩ := proceeds_iff.mp hp
    rw [tmpMatch_order (hplain hreg hskip) hle] at hm
    cases hm
  · have hfg : f = g.name := List.append_cancel_left hm
    rw [steady_source_entry hS hne] at hs
    exact Or.inr ⟨s, hfg ▸ hs, h⟩

/-- A property of the destination of `f` that the installed source contents have is
kept by the loop over entries not listed before `f`. -/
theorem copyFiles_keeps {src t : String} {u : Bool} {skip : List Name} {pfx : Name}
    {fs0 : FS} {f : Name} (hne : src ≠ t) (Q : Option Entry → Prop)
    (hQ : ∀ s, fs0.entry src f = some s → Q (some (installed (pfx ++ f) s.contents)))
    (rest : List Entry) (fs : FS) (hS : Steady src fs0 fs)
    (hplain : ∀ g ∈ rest, g.isDir = false → g.name ∉ skip → plainName (pfx ++ g.name) = true)
    (hle : ∀ g ∈ rest, nameLE f g.name = true) (h : Q (fs.entry t (pfx ++ f))) :
    Q ((copyFiles src t u skip pfx rest fs).1.entry t (pfx ++ f)) := by
  induction rest generalizing fs with
  | nil => exact h
  | cons g rest ih =>
    have h1 : Q ((copyFile src t u skip pfx fs g).1.entry t (pfx ++ f)) := by
      rcases copyFile_keeps (u := u) hne hS (hplain g (List.mem_cons_self _ _))
        (hle g (List.mem_cons_self _ _)) with h2 | ⟨s, hs, h2⟩
      · rw [h2]; exact h
      · rw [h2]; exact hQ s hs
    rw [copyFiles_cons]
    by_cases h0 : (copyFile src t u skip pfx fs g).2 = none
    · rw [if_pos h0]
      exact ih _ (hS.step (touch_copyFile src t u skip pfx fs g) hne)
        (fun x hx => hplain x (List.mem_cons_of_mem _ hx))
        (fun x hx => hle x (List.mem_cons_of_mem _ hx)) h1
    · rw [if_neg h0]
      exact h1

/-- After the loop body has handled a regular, non-skipped entry without error, its
destination exists; it holds the source contents if it was to be written or held them
already. -/
theorem copyFile_done {src t : String} {u : Bool} {skip : List Name} {pfx : Name}
    {fs0 fs : FS} {f : Entry} (hne : src ≠ t) (hS : Steady src fs0 fs)
    (hreg : f.isDir = false) (hskip : f.name ∉ skip)
    (hok : (copyFile src t u skip pfx fs f).2 = none) :
    (copyFile src t u skip pfx fs f).1.entry t (pfx ++ f.name) ≠ none ∧
      ((u = true ∨ fs.entry t (pfx ++ f.name) = none ∨ Fresh fs0 src pfx fs t f.name) →
        Fresh fs0 src pfx (copyFile src t u skip pfx fs f).1 t f.name) := by
  cases hp : proceeds t u skip pfx fs f
  · rw [copyFile_of_not_proceeds hp]
    have hn : ¬ (u = true ∨ fs.entry t (pfx ++ f.name) = none) := by
      intro hc
      have := proceeds_iff.mpr ⟨hreg, hskip, hc⟩
      rw [hp] at this
      cases this
    rw [not_or] at hn
    refine ⟨hn.2, fun hc => ?_⟩
    rcases hc with hc | hc | hc
    · exact absurd hc hn.1
    · exact absurd hc hn.2
    · exact hc
  · rw [copyFile_of_proceeds hp] at hok ⊢
    split at hok
    · cases hok
    · rename_i fs2 hc
      simp only
      obtain ⟨_, _, ⟨s, hs, _, _, hinst⟩, _⟩ := atomicCopy_ok hc
      rw [steady_source_entry hS hne] at hs
      exact ⟨by rw [hinst]; simp, fun _ => ⟨s, hs, hinst⟩⟩

/-- A successful round over a sorted listing leaves the destination of every regular,
non-skipped entry in place. -/
theorem copyFiles_exists {src t : String} {u : Bool} {skip : List Name} {pfx : Name}
    {fs0 : FS} (hne : src ≠ t) (l : List Entry) (fs : FS) (hS : Steady src fs0 fs)
    (hsorted : l.Pairwise (fun a b => nameLE a.name b.name = true))
    (hplain : ∀ g ∈ l, g.isDir = false → g.name ∉ skip → plainName (pfx ++ g.name) = true)
    (hok : (copyFiles src t u skip pfx l fs).2 = none) :
    ∀ f ∈ l, f.isDir = false → f.name ∉ skip →
      (copyFiles src t u skip pfx l fs).1.entry t (pfx ++ f.name) ≠ none := by
  induction l generalizing fs with
  | nil => intro f hf; cases hf
  | cons g rest ih =>
    rw [copyFiles_cons] at hok ⊢
    by_cases h0 : (copyFile src t u skip pfx fs g).2 = none
    · rw [if_pos h0] at hok ⊢
      rw [List.pairwise_cons] at hsorted
      have hS1 := hS.step (touch_copyFile src t u skip pfx fs g) hne
      have hplain' : ∀ x ∈ rest, x.isDir = false → x.name ∉ skip →
          plainName (pfx ++ x.name) = true := fun x hx => hplain x (List.mem_cons_of_mem _ hx)
      intro f hf hreg hskip
      rcases List.mem_cons.mp hf with rfl | hf
      · exact copyFiles_keeps hne (fun o => o ≠ none) (fun s _ => by simp) rest _ hS1
          hplain' hsorted.1 (copyFile_done hne hS hreg hskip h0).1
      · exact ih _ hS1 hsorted.2 hplain' hok f hf hreg hskip
    · rw [if_neg h0] at hok
      exact absurd hok h0

/-- A successful round over a sorted listing installs the source contents at the
destination of every regular, non-skipped entry that was to be written or held them
already. -/
theorem copyFiles_fresh {src t : String} {u : Bool} {skip : List Name} {pfx : Name}
    {fs0 : FS} (hne : src ≠ t) (l : List Entry) (fs : FS) (hS : Steady src fs0 fs)
    (hsorted : l.Pairwise (fun a b => nameLE a.name b.name = true))
    (hplain : ∀ g ∈ l, g.isDir = false → g.name ∉ skip → plainName (pfx ++ g.name) = true)
    (hok : (copyFiles src t u skip pfx l fs).2 = none) :
    ∀ f ∈ l, f.isDir = false → f.name ∉ skip →
      (u = true ∨ fs.entry t (pfx ++ f.name) = none ∨ Fresh fs0 src pfx fs t f.name) →
      Fresh fs0 src pfx (copyFiles src t u skip pfx l fs).1 t f.name := by
  induction l generalizing fs with
  | nil => intro f hf; cases hf
  | cons g rest ih =>
    rw [copyFiles_cons] at hok ⊢
    by_cases h0 : (copyFile src t u skip pfx fs g).2 = none
    · rw [if_pos h0] at hok ⊢
      rw [List.pairwise_cons] at hsorted
      have hS1 := hS.step (touch_copyFile src t u skip pfx fs g) hne
      have hplain' : ∀ x ∈ rest, x.isDir = false → x.name ∉ skip →
          plainName (pfx ++ x.name) = true := fun x hx => hplain x (List.mem_cons_of_mem _ hx)
      intro f hf hreg hskip hc
      rcases List.mem_cons.mp hf with rfl | hf
      · exact copyFiles_keeps hne
          (fun o => ∃ s, fs0.entry src f.name = some s ∧
            o = some (installed (pfx ++ f.name) s.contents))
          (fun s hs => ⟨s, hs, rfl⟩) rest _ hS1 hplain' hsorted.1
          ((copyFile_done hne hS hreg hskip h0).2 hc)
      · refine ih _ hS1 hsorted.2 hplain' hok f hf hreg hskip ?_
        rcases hc with hc | hc | hc
        · exact Or.inl hc
        · rcases copyFile_entry src t u skip pfx fs g (pfx ++ f.name) with h | ⟨_, _, h⟩ |
            ⟨_, hm, _, s, hs, _, h⟩
          · exact Or.inr (Or.inl (h.trans hc))
          · exact Or.inr (Or.inl h)
          · have hfg : f.name = g.name := List.append_cancel_left hm
            rw [steady_source_entry hS hne] at hs
            exact Or.inr (Or.inr ⟨s, hfg ▸ hs, h⟩)
        · rcases copyFile_entry src t u skip pfx fs g (pfx ++ f.name) with h | ⟨_, _, h⟩ |
            ⟨_, hm, _, s, hs, _, h⟩
          · obtain ⟨s, hs, hc⟩ := hc
            exact Or.inr (Or.inr ⟨s, hs, h.trans hc⟩)
          · exact Or.inr (Or.inl h)
          · have hfg : f.name = g.name := List.append_cancel_left hm
            rw [steady_source_entry hS hne] at hs
            exact Or.inr (Or.inr ⟨s, hfg ▸ hs, h⟩)
    · rw [if_neg h0] at hok
      exact absurd hok h0

/-! ## Whole runs with literal patterns -/

theorem steady_of_run (src : String) (ds : List String) (u : Bool) (skip : List Name)
    (pfx : Name) (fs : FS) (hsrc : src ∉ ds) :
    Steady src fs (copyBinaries src ds u skip pfx fs).1 :=
  ⟨(copyBinaries_frame src ds u skip pfx fs).2 src (Or.inl hsrc),
   (copyBinaries_frame src ds u skip pfx fs).1⟩

/-- A round that returns no error has listed the source directory. -/
theorem pass_ok {src t : String} {u : Bool} {skip : List Name} {pfx : Name} {fs0 fs : FS}
    (hS : Steady src fs0 fs) (hok : (pass src t u skip pfx fs).2 = none) :
    ∃ dir, fs0 src = some dir ∧
      pass src t u skip pfx fs = copyFiles src t u skip pfx (listing dir) fs := by
  unfold pass osReadDir at hok ⊢
  rw [hS.1] at hok ⊢
  cases hdir : fs0 src with
  | none => rw [hdir] at hok; cases hok
  | some dir => exact ⟨dir, rfl, rfl⟩

theorem pass_fresh {src t : String} {u : Bool} {skip : List Name} {pfx : Name} {fs0 fs : FS}
    (hne : src ≠ t) (hS : Steady src fs0 fs)
    (hplain : ∀ g, SourceFile fs0 src skip g → plainName (pfx ++ g.name) = true)
    (hok : (pass src t u skip pfx fs).2 = none) (f : Entry) (hf : SourceFile fs0 src skip f)
    (hc : u = true ∨ fs.entry t (pfx ++ f.name) = none ∨ Fresh fs0 src pfx fs t f.name) :
    Fresh fs0 src pfx (pass src t u skip pfx fs).1 t f.name := by
  obtain ⟨dir, hdir, hpass⟩ := pass_ok hS hok
  obtain ⟨dir', hdir', hmem, hreg, hskip⟩ := hf
  rw [hdir] at hdir'
  cases hdir'
  rw [hpass] at hok ⊢
  exact copyFiles_fresh hne (listing dir) fs hS (sortByName_sorted _)
    (fun g hg hr hs => hplain g ⟨dir, hdir, mem_sortByName.mp hg, hr, hs⟩) hok f
    (mem_sortByName.mpr hmem) hreg hskip hc

theorem pass_settled {src t : String} {u : Bool} {skip : List Name} {pfx : Name}
    {fs0 fs : FS} (hne : src ≠ t) (hS : Steady src fs0 fs)
    (hplain : ∀ g, SourceFile fs0 src skip g → plainName (pfx ++ g.name) = true)
    (hok : (pass src t u skip pfx fs).2 = none) :
    Settled fs0 src skip pfx (pass src t u skip pfx fs).1 t := by
  obtain ⟨dir, hdir, hpass⟩ := pass_ok hS hok
  refine ⟨⟨dir, hdir⟩, fun f hf => ?_⟩
  obtain ⟨dir', hdir', hmem, hreg, hskip⟩ := hf
  rw [hdir] at hdir'
  cases hdir'
  rw [hpass] at hok ⊢
  exact copyFiles_exists hne (listing dir) fs hS (sortByName_sorted _)
    (fun g hg hr hs => hplain g ⟨dir, hdir, mem_sortByName.mp hg, hr, hs⟩) hok f
    (mem_sortByName.mpr hmem) hreg hskip

/-- Once installed, the source contents stay at the destination through the rest of a
successful run. -/
theorem run_keeps_fresh {src : String} {ds : List String} {u : Bool} {skip : List Name}
    {pfx : Name} {fs0 : FS} (hsrc : src ∉ ds)
    (hplain : ∀ g, SourceFile fs0 src skip g → plainName (pfx ++ g.name) = true)
    (t : String) (f : Entry) (hf : SourceFile fs0 src skip f) (ds' : List String)
    (hsub : ∀ x ∈ ds', x ∈ ds) (fs : FS) (hS : Steady src fs0 fs)
    (hok : (copyBinaries src ds' u skip pfx fs).2 = none)
    (h : Fresh fs0 src pfx fs t f.name) :
    Fresh fs0 src pfx (copyBinaries src ds' u skip pfx fs).1 t f.name := by
  induction ds' generalizing fs with
  | nil => exact h
  | cons t0 rest ih =>
    have hne : src ≠ t0 := fun hh => hsrc (hh ▸ hsub t0 (List.mem_cons_self _ _))
    have hrest : ∀ x ∈ rest, x ∈ ds := fun x hx => hsub x (List.mem_cons_of_mem _ hx)
    rw [copyBinaries_cons] at hok ⊢
    by_cases hw : isDirWriteable fs t0 = none
    · rw [if_pos hw] at hok ⊢
      by_cases hp : (pass src t0 u skip pfx fs).2 = none
      · rw [if_pos hp] at hok ⊢
        refine ih hrest _ (hS.step (touch_pass src t0 u skip pfx fs) hne) hok ?_
        by_cases ht : t = t0
        · subst ht
          exact pass_fresh hne hS hplain hp f hf (Or.inr (Or.inr h))
        · obtain ⟨s, hs, h⟩ := h
          exact ⟨s, hs, (entry_congr ((touch_pass src t0 u skip pfx fs).1 t ht) _).trans h⟩
      · rw [if_neg hp] at hok
        exact absurd hok hp
    · rw [if_neg hw] at hok ⊢
      exact ih hrest fs hS hok h

theorem run_fresh {src : String} {ds : List String} {u : Bool} {skip : List Name}
    {pfx : Name} {fs0 : FS} (hsrc : src ∉ ds)
    (hplain : ∀ g, SourceFile fs0 src skip g → plainName (pfx ++ g.name) = true)
    (t : String) (hw0 : isDirWriteable fs0 t = none) (f : Entry)
    (hf : SourceFile fs0 src skip f) (ds' : List String)
    (hsub : ∀ x ∈ ds', x ∈ ds) (ht : t ∈ ds') (fs : FS) (hS : Steady src fs0 fs)
    (hok : (copyBinaries src ds' u skip pfx fs).2 = none)
    (hc : u = true ∨ fs.entry t (pfx ++ f.name) = none ∨ Fresh fs0 src pfx fs t f.name) :
    Fresh fs0 src pfx (copyBinaries src ds' u skip pfx fs).1 t f.name := by
  induction ds' generalizing fs with
  | nil => cases ht
  | cons t0 rest ih =>
    have hne : src ≠ t0 := fun hh => hsrc (hh ▸ hsub t0 (List.mem_cons_self _ _))
    have hrest : ∀ x ∈ rest, x ∈ ds := fun x hx => hsub x (List.mem_cons_of_mem _ hx)
    have hokk := hok
    rw [copyBinaries_cons] at hok ⊢
    by_cases hw : isDirWriteable fs t0 = none
    · rw [if_pos hw] at hok ⊢
      by_cases hp : (pass src t0 u skip pfx fs).2 = none
      · rw [if_pos hp] at hok ⊢
        have hS1 := hS.step (touch_pass src t0 u skip pfx fs) hne
        by_cases htt : t = t0
        · subst htt
          exact run_keeps_fresh hsrc hplain t f hf rest hrest _ hS1 hok
            (pass_fresh hne hS hplain hp f hf hc)
        · have hmem : t ∈ rest := by
            rcases List.mem_cons.mp ht with h | h
            · exact absurd h htt
            · exact h
          have hsame := entry_congr ((touch_pass src t0 u skip pfx fs).1 t htt) (pfx ++ f.name)
          refine ih hrest hmem _ hS1 hok ?_
          rcases hc with hc | hc | ⟨s, hs, hc⟩
          · exact Or.inl hc
          · exact Or.inr (Or.inl (hsame.trans hc))
          · exact Or.inr (Or.inr ⟨s, hs, hsame.trans hc⟩)
      · rw [if_neg hp] at hok
        exact absurd hok hp
    · rw [if_neg hw] at hok ⊢
      have htt : t ≠ t0 := by
        rintro rfl
        rw [isDirWriteable_congr (hS.2 t)] at hw
        exact hw hw0
      have hmem : t ∈ rest := by
        rcases List.mem_cons.mp ht with h | h
        · exact absurd h htt
        · exact h
      exact ih hrest hmem fs hS hok hc

/-! ## Repeating a run without update -/

theorem copyFiles_noop {src t : String} {u : Bool} {skip : List Name} {pfx : Name}
    (l : List Entry) (fs : FS) (h : ∀ f ∈ l, proceeds t u skip pfx fs f = false) :
    copyFiles src t u skip pfx l fs = (fs, none) := by
  induction l with
  | nil => rfl
  | cons f rest ih =>
    rw [copyFiles_cons, copyFile_of_not_proceeds (h f (List.mem_cons_self _ _))]
    simp only [if_true]
    exact ih (fun g hg => h g (List.mem_cons_of_mem _ hg))

/-- Without update, a round over a settled directory does nothing. -/
theorem pass_noop {src t : String} {skip : List Name} {pfx : Name} {fs0 fs : FS}
    (hS : Steady src fs0 fs) (hset : Settled fs0 src skip pfx fs t) :
    pass src t false skip pfx fs = (fs, none) := by
  obtain ⟨⟨dir, hdir⟩, hall⟩ := hset
  unfold pass osReadDir
  rw [hS.1, hdir]
  simp only
  refine copyFiles_noop _ fs (fun f hf => ?_)
  cases hp : proceeds t false skip pfx fs f
  · rfl
  · exfalso
    obtain ⟨hreg, hskip, hmiss⟩ := proceeds_iff.mp hp
    rcases hmiss with hmiss | hmiss
    · cases hmiss
    · exact hall f ⟨dir, hdir, mem_sortByName.mp hf, hreg, hskip⟩ hmiss

/-- Without update, a settled directory stays settled through any further rounds. -/
theorem run_keeps_settled {src : String} {ds : List String} {skip : List Name} {pfx : Name}
    {fs0 : FS} (hsrc : src ∉ ds) (t : String) (ds' : List String)
    (hsub : ∀ x ∈ ds', x ∈ ds) (fs : FS) (hS : Steady src fs0 fs)
    (h : Settled fs0 src skip pfx fs t) :
    Settled fs0 src skip pfx (copyBinaries src ds' false skip pfx fs).1 t := by
  induction ds' generalizing fs with
  | nil => exact h
  | cons t0 rest ih =>
    have hne : src ≠ t0 := fun hh => hsrc (hh ▸ hsub t0 (List.mem_cons_self _ _))
    have hrest : ∀ x ∈ rest, x ∈ ds := fun x hx => hsub x (List.mem_cons_of_mem _ hx)
    have hS1 := hS.step (touch_pass src t0 false skip pfx fs) hne
    have h1 : Settled fs0 src skip pfx (pass src t0 false skip pfx fs).1 t := by
      by_cases ht : t = t0
      · subst ht
        rw [pass_noop hS h]
        exact h
      · refine ⟨h.1, fun f hf => ?_⟩
        rw [entry_congr ((touch_pass src t0 false skip pfx fs).1 t ht)]
        exact h.2 f hf
    rw [copyBinaries_cons]
    by_cases hw : isDirWriteable fs t0 = none
    · rw [if_pos hw]
      by_cases hp : (pass src t0 false skip pfx fs).2 = none
      · rw [if_pos hp]
        exact ih hrest _ hS1 h1
      · rw [if_neg hp]
        exact h1
    · rw [if_neg hw]
      exact ih hrest fs hS h

/-- After a successful run without update, every writable target directory is
settled. -/
theorem run_settled {src : String} {ds : List String} {skip : List Name} {pfx : Name}
    {fs0 : FS} (hsrc : src ∉ ds)
    (hplain : ∀ g, SourceFile fs0 src skip g → plainName (pfx ++ g.name) = true)
    (t : String) (hw0 : isDirWriteable fs0 t = none) (ds' : List String)
    (hsub : ∀ x ∈ ds', x ∈ ds) (ht : t ∈ ds') (fs : FS) (hS : Steady src fs0 fs)
    (hok : (copyBinaries src ds' false skip pfx fs).2 = none) :
    Settled fs0 src skip pfx (copyBinaries src ds' false skip pfx fs).1 t := by
  induction ds' generalizing fs with
  | nil => cases ht
  | cons t0 rest ih =>
    have hne : src ≠ t0 := fun hh => hsrc (hh ▸ hsub t0 (List.mem_cons_self _ _))
    have hrest : ∀ x ∈ rest, x ∈ ds := fun x hx => hsub x (List.mem_cons_of_mem _ hx)
    rw [copyBinaries_cons] at hok ⊢
    by_cases hw : isDirWriteable fs t0 = none
    · rw [if_pos hw] at hok ⊢
      by_cases hp : (pass src t0 false skip pfx fs).2 = none
      · rw [if_pos hp] at hok ⊢
        have hS1 := hS.step (touch_pass src t0 false skip pfx fs) hne
        by_cases htt : t = t0
        · subst htt
          exact run_keeps_settled hsrc t rest hrest _ hS1 (pass_settled hne hS hplain hp)
        · have hmem : t ∈ rest := by
            rcases List.mem_cons.mp ht with h | h
            · exact absurd h htt
            · exact h
          exact ih hrest hmem _ hS1 hok
      · rw [if_neg hp] at hok
        exact absurd hok hp
    · rw [if_neg hw] at hok ⊢
      have htt : t ≠ t0 := by
        rintro rfl
        rw [isDirWriteable_congr (hS.2 t)] at hw
        exact hw hw0
      have hmem : t ∈ rest := by
        rcases List.mem_cons.mp ht with h | h
        · exact absurd h htt
        · exact h
      exact ih hrest hmem fs hS hok

/-- Without update, a run over settled directories does nothing and returns nil. -/
theorem run_noop {src : String} {skip : List Name} {pfx : Name} {fs0 : FS}
    (ds' : List String) (fs : FS) (hS : Steady src fs0 fs)
    (h : ∀ t ∈ ds', isDirWriteable fs0 t = none → Settled fs0 src skip pfx fs t) :
    copyBinaries src ds' false skip pfx fs = (fs, none) := by
  induction ds' with
  | nil => rfl
  | cons t0 rest ih =>
    rw [copyBinaries_cons]
    by_cases hw : isDirWriteable fs t0 = none
    · have hw0 : isDirWriteable fs0 t0 = none := by
        rw [← isDirWriteable_congr (hS.2 t0)]; exact hw
      rw [if_pos hw, pass_noop hS (h t0 (List.mem_cons_self _ _) hw0)]
      simp only [if_true]
      exact ih (fun t ht => h t (List.mem_cons_of_mem _ ht))
    · rw [if_neg hw]
      exact ih (fun t ht => h t (List.mem_cons_of_mem _ ht))

theorem sourceFile_mkFS {src tgt : List Entry} {skip : List Name} {g : Entry}
    (h : SourceFile (mkFS src tgt) "/src" skip g) :
    g ∈ src ∧ g.isDir = false ∧ g.name ∉ skip := by
  obtain ⟨dir, hdir, hmem, hreg, hskip⟩ := h
  have : dir = { writable := true, entries := src } := by
    simp [mkFS] at hdir
    exact hdir.symm
  subst this
  exact ⟨hmem, hreg, hskip⟩

theorem entry_mkFS_target {src tgt : List Entry} {n : Name} {e : Entry}
    (h : (mkFS src tgt).entry "/t" n = some e) : e ∈ tgt ∧ e.name = n := by
  have h2 : lookup tgt n = some e := h
  exact ⟨lookup_mem h2, lookup_name h2⟩

/-! ## The destinations a run goes on to copy -/

/-- The effect of the inner loop on an entry of the target directory, in terms of the
destinations it goes on to copy. -/
theorem copyFiles_effect (src t : String) (u : Bool) (skip : List Name) (pfx : Name)
    (l : List Entry) (fs : FS) (n : Name) :
    (copyFiles src t u skip pfx l fs).1.entry t n = fs.entry t n ∨
      ∃ D ∈ fileDestinations src t u skip pfx l fs,
        (tmpMatch D n = true ∧ (copyFiles src t u skip pfx l fs).1.entry t n = none) ∨
          (n = D ∧ ∃ c, (copyFiles src t u skip pfx l fs).1.entry t n
            = some (installed n c)) := by
  induction l generalizing fs with
  | nil => exact Or.inl rfl
  | cons f rest ih =>
    have hstep : (copyFile src t u skip pfx fs f).1.entry t n = fs.entry t n ∨
        (proceeds t u skip pfx fs f = true ∧
          ((tmpMatch (pfx ++ f.name) n = true ∧
              (copyFile src t u skip pfx fs f).1.entry t n = none) ∨
            (n = pfx ++ f.name ∧
              ∃ c, (copyFile src t u skip pfx fs f).1.entry t n = some (installed n c)))) := by
      rcases copyFile_entry src t u skip pfx fs f n with h | ⟨hp, hm, h⟩ |
        ⟨hp, hm, _, s, _, _, h⟩
      · exact Or.inl h
      · exact Or.inr ⟨hp, Or.inl ⟨hm, h⟩⟩
      · exact Or.inr ⟨hp, Or.inr ⟨hm, s.contents, h⟩⟩
    rw [copyFiles_cons]
    unfold fileDestinations
    by_cases h0 : (copyFile src t u skip pfx fs f).2 = none
    · rw [if_pos h0, if_pos h0]
      rcases ih (copyFile src t u skip pfx fs f).1 with h | ⟨D, hD, h⟩
      · rcases hstep with h2 | ⟨hp, h2⟩
        · exact Or.inl (h.trans h2)
        · refine Or.inr ⟨pfx ++ f.name, by simp [hp], ?_⟩
          rw [h]
          exact h2
      · exact Or.inr ⟨D, List.mem_append_right _ hD, h⟩
    · rw [if_neg h0, if_neg h0]
      rcases hstep with h2 | ⟨hp, h2⟩
      · exact Or.inl h2
      · exact Or.inr ⟨pfx ++ f.name, by simp [hp], h2⟩

theorem mem_fileDestinations {src t : String} {u : Bool} {skip : List Name} {pfx : Name}
    {l : List Entry} {fs : FS} {D : Name}
    (h : D ∈ fileDestinations src t u skip pfx l fs) :
    ∃ f ∈ l, f.isDir = false ∧ f.name ∉ skip ∧ D = pfx ++ f.name := by
  induction l generalizing fs with
  | nil => cases h
  | cons f rest ih =>
    unfold fileDestinations at h
    rcases List.mem_append.mp h with h | h
    · by_cases hp : proceeds t u skip pfx fs f = true
      · rw [if_pos hp] at h
        obtain ⟨hreg, hskip, _⟩ := proceeds_iff.mp hp
        exact ⟨f, List.mem_cons_self _ _, hreg, hskip, List.mem_singleton.mp h⟩
      · rw [if_neg hp] at h
        cases h
    · by_cases h0 : (copyFile src t u skip pfx fs f).2 = none
      · rw [if_pos h0] at h
        obtain ⟨g, hg, h2⟩ := ih h
        exact ⟨g, List.mem_cons_of_mem _ hg, h2⟩
      · rw [if_neg h0] at h
        cases h

theorem runDestinations_cons (src t : String) (rest : List String) (u : Bool)
    (skip : List Name) (pfx : Name) (fs : FS) :
    runDestinations src (t :: rest) u skip pfx fs =
      if isDirWriteable fs t = none then
        match osReadDir fs src with
        | .error _ => []
        | .ok files =>
          (fileDestinations src t u skip pfx files fs).map (fun D => (t, D)) ++
            (if (copyFiles src t u skip pfx files fs).2 = none then
              runDestinations src rest u skip pfx (copyFiles src t u skip pfx files fs).1
            else [])
      else runDestinations src rest u skip pfx fs := by
  rw [runDestinations]

/-- The effect of a run on an entry, in terms of the destinations it goes on to copy:
the entry is as before, or it was removed as a match of the temp-file pattern of such
a destination in its directory, or it is such a destination. -/
theorem run_destinations_effect (src : String) (ds : List String) (u : Bool)
    (skip : List Name) (pfx : Name) (fs : FS) (d : String) (n : Name) :
    (copyBinaries src ds u skip pfx fs).1.entry d n = fs.entry d n ∨
      ∃ D, (d, D) ∈ runDestinations src ds u skip pfx fs ∧
        ((tmpMatch D n = true ∧ (copyBinaries src ds u skip pfx fs).1.entry d n = none) ∨
          (n = D ∧ ∃ c, (copyBinaries src ds u skip pfx fs).1.entry d n
            = some (installed n c))) := by
  induction ds generalizing fs with
  | nil => exact Or.inl rfl
  | cons t rest ih =>
    rw [copyBinaries_cons, runDestinations_cons]
    by_cases hw : isDirWriteable fs t = none
    · rw [if_pos hw, if_pos hw]
      unfold pass
      cases hr : osReadDir fs src with
      | error e => exact Or.inl rfl
      | ok files =>
        simp only
        have hpass : (copyFiles src t u skip pfx files fs).1.entry d n = fs.entry d n ∨
            ∃ D ∈ fileDestinations src t u skip pfx files fs, d = t ∧
              ((tmpMatch D n = true ∧
                  (copyFiles src t u skip pfx files fs).1.entry d n = none) ∨
                (n = D ∧ ∃ c, (copyFiles src t u skip pfx files fs).1.entry d n
                  = some (installed n c))) := by
          by_cases hd : d = t
          · subst hd
            rcases copyFiles_effect src d u skip pfx files fs n with h | ⟨D, hD, h⟩
            · exact Or.inl h
            · exact Or.inr ⟨D, hD, rfl, h⟩
          · exact Or.inl (entry_congr ((touch_copyFiles src t u skip pfx files fs).1 d hd) n)
        by_cases h0 : (copyFiles src t u skip pfx files fs).2 = none
        · rw [if_pos h0, if_pos h0]
          rcases ih (copyFiles src t u skip pfx files fs).1 with h | ⟨D, hD, h⟩
          · rcases hpass with h2 | ⟨D, hD, hd, h2⟩
            · exact Or.inl (h.trans h2)
            · refine Or.inr ⟨D, List.mem_append_left _
                (List.mem_map.mpr ⟨D, hD, by rw [hd]⟩), ?_⟩
              rw [h]
              exact h2
          · exact Or.inr ⟨D, List.mem_append_right _ hD, h⟩
        · rw [if_neg h0, if_neg h0]
          rcases hpass with h2 | ⟨D, hD, hd, h2⟩
          · exact Or.inl h2
          · exact Or.inr ⟨D, by
              rw [List.append_nil]
              exact List.mem_map.mpr ⟨D, hD, by rw [hd]⟩, h2⟩
    · rw [if_neg hw, if_neg hw]
      exact ih fs

/-- A destination that a run goes on to copy lies in a writable target directory and is
the prefixed name of a regular, non-skipped entry; when the source directory is not a
target directory, of one that was in the source directory before the run. -/
theorem mem_runDestinations {src : String} {ds : List String} {u : Bool} {skip : List Name}
    {pfx : Name} (fs0 : FS) (ds' : List String) (fs : FS)
    (hw : ∀ x, (fs x).map Dir.writable = (fs0 x).map Dir.writable)
    (hsub : ∀ x ∈ ds', x ∈ ds) {d : String} {D : Name}
    (h : (d, D) ∈ runDestinations src ds' u skip pfx fs) :
    d ∈ ds ∧ isDirWriteable fs0 d = none ∧
      (∃ f : Entry, f.isDir = false ∧ f.name ∉ skip ∧ D = pfx ++ f.name) ∧
      (src ∉ ds → fs src = fs0 src → ∃ f, SourceFile fs0 src skip f ∧ D = pfx ++ f.name) := by
  induction ds' generalizing fs with
  | nil => cases h
  | cons t rest ih =>
    have hrest : ∀ x ∈ rest, x ∈ ds := fun x hx => hsub x (List.mem_cons_of_mem _ hx)
    rw [runDestinations_cons] at h
    by_cases hwt : isDirWriteable fs t = none
    · rw [if_pos hwt] at h
      cases hr : osReadDir fs src with
      | error e => rw [hr] at h; cases h
      | ok files =>
        rw [hr] at h
        simp only at h
        have htouch := touch_copyFiles src t u skip pfx files fs
        rcases List.mem_append.mp h with h | h
        · obtain ⟨D', hD', heq⟩ := List.mem_map.mp h
          cases heq
          obtain ⟨f, hf, hreg, hskip, hD⟩ := mem_fileDestinations hD'
          refine ⟨hsub d (List.mem_cons_self _ _), ?_, ⟨f, hreg, hskip, hD⟩, fun _ hsrc => ?_⟩
          · rw [← isDirWriteable_congr (hw d)]; exact hwt
          · unfold osReadDir at hr
            rw [hsrc] at hr
            cases hdir : fs0 src with
            | none => rw [hdir] at hr; cases hr
            | some dir =>
              rw [hdir] at hr
              cases hr
              exact ⟨f, ⟨dir, hdir, mem_sortByName.mp hf, hreg, hskip⟩, hD⟩
        · by_cases h0 : (copyFiles src t u skip pfx files fs).2 = none
          · rw [if_pos h0] at h
            obtain ⟨h1, h2, h3, h4⟩ := ih _ (fun x => (htouch.2 x).trans (hw x)) hrest h
            refine ⟨h1, h2, h3, fun hns hsrc => h4 hns ?_⟩
            have hne : src ≠ t := fun hh => hns (hh ▸ hsub t (List.mem_cons_self _ _))
            exact (htouch.1 src hne).trans hsrc
          · rw [if_neg h0] at h
            cases h
    · rw [if_neg hwt] at h
      exact ih fs hw hrest h
/-- Without update, the inner loop keeps an existing entry that matches the temp-file
pattern of none of the destinations it goes on to copy. -/
theorem copyFiles_preserves (src t : String) (skip : List Name) (pfx : Name)
    (l : List Entry) (fs : FS) (m : Name) (e : Entry) (hex : fs.entry t m = some e)
    (hno : ∀ D ∈ fileDestinations src t false skip pfx l fs, tmpMatch D m = false) :
    (copyFiles src t false skip pfx l fs).1.entry t m = some e := by
  induction l generalizing fs with
  | nil => exact hex
  | cons f rest ih =>
    unfold fileDestinations at hno
    have hstep : (copyFile src t false skip pfx fs f).1.entry t m = some e := by
      rcases copyFile_entry src t false skip pfx fs f m with h | ⟨hp, hm, _⟩ | ⟨hp, hm, _⟩
      · exact h.trans hex
      · rw [hno (pfx ++ f.name) (List.mem_append_left _ (by simp [hp]))] at hm
        cases hm
      · obtain ⟨_, _, hmiss⟩ := proceeds_iff.mp hp
        rcases hmiss with hmiss | hmiss
        · cases hmiss
        · rw [← hm, hex] at hmiss
          cases hmiss
    rw [copyFiles_cons]
    by_cases h0 : (copyFile src t false skip pfx fs f).2 = none
    · rw [if_pos h0]
      refine ih _ hstep (fun D hD => hno D (List.mem_append_right _ ?_))
      rw [if_pos h0]
      exact hD
    · rw [if_neg h0]
      exact hstep

/-- Without update, a run keeps an existing entry that matches the temp-file pattern
of none of the destinations it goes on to copy into the directory of the entry. -/
theorem run_preserves (src : String) (ds : List String) (skip : List Name) (pfx : Name)
    (fs : FS) (d : String) (m : Name) (e : Entry) (hex : fs.entry d m = some e)
    (hno : ∀ p ∈ runDestinations src ds false skip pfx fs, p.1 = d → tmpMatch p.2 m = false) :
    (copyBinaries src ds false skip pfx fs).1.entry d m = some e := by
  induction ds generalizing fs with
  | nil => exact hex
  | cons t rest ih =>
    rw [runDestinations_cons] at hno
    rw [copyBinaries_cons]
    by_cases hw : isDirWriteable fs t = none
    · rw [if_pos hw] at hno ⊢
      unfold pass
      cases hr : osReadDir fs src with
      | error err => exact hex
      | ok files =>
        rw [hr] at hno
        simp only at hno ⊢
        have hpass : (copyFiles src t false skip pfx files fs).1.entry d m = some e := by
          by_cases hd : d = t
          · subst hd
            exact copyFiles_preserves src d skip pfx files fs m e hex (fun D hD =>
              hno (d, D) (List.mem_append_left _ (List.mem_map.mpr ⟨D, hD, rfl⟩)) rfl)
          · exact (entry_congr ((touch_copyFiles src t false skip pfx files fs).1 d hd) m).trans
              hex
        by_cases h0 : (copyFiles src t false skip pfx files fs).2 = none
        · rw [if_pos h0] at hno ⊢
          exact ih _ hpass (fun p hp => hno p (List.mem_append_right _ hp))
        · rw [if_neg h0]
          exact hpass
    · rw [if_neg hw] at hno ⊢
      exact ih fs hex hno

/-! ## The domain of the embedding -/

theorem tmpMatch_plain_imp {tf n : Name} (h : plainName tf = true)
    (hm : tmpMatch tf n = true) : tmpPrefix tf <+: n := by
  obtain ⟨r, rfl, _⟩ := (tmpMatch_plain tf n h).mp hm
  exact List.prefix_append _ _

theorem fragment_sep {s : Name} (h : fragment s = true) : '/' ∉ s := by
  intro hm
  have := (List.all_eq_true.mp h) '/' hm
  simp [nameChar] at this

theorem validName_sep {n : Name} (h : validName n = true) : '/' ∉ n := by
  unfold validName at h
  simp only [Bool.and_eq_true] at h
  exact fragment_sep h.1.1.2

theorem inScope_entry_sep {srcDir : String} {targetDirs : List String} {pfx : Name} {fs : FS}
    (h : inScope srcDir targetDirs pfx fs = true) {d : String}
    (hd : d ∈ srcDir :: targetDirs) {n : Name} {e : Entry} (he : fs.entry d n = some e) :
    '/' ∉ n := by
  unfold inScope at h
  simp only [Bool.and_eq_true] at h
  have h5 := List.all_eq_true.mp h.2 d hd
  simp only [Bool.and_eq_true] at h5
  unfold FS.entry at he
  cases hfs : fs d with
  | none =>
    rw [hfs] at he
    cases he
  | some dir =>
    rw [hfs] at he
    have hmem : n ∈ entryNames fs d := by
      unfold entryNames
      rw [hfs]
      exact List.mem_map.mpr ⟨e, lookup_mem he, lookup_name he⟩
    exact validName_sep (List.all_eq_true.mp h5.1 n hmem)
/-! ## The pattern model on the cases of Go's test table -/

/-- The model of `filepath.Match` returns what Go returns on every case of the table. -/
theorem filepathMatch_matchTable :
    matchTable.all (fun t => filepathMatch t.1.toList t.2.1.toList == t.2.2) = true := by
  decide

/-! ## The scenarios of `binaries_test.go` -/

/-- `TestCopyBinaries`, "basic": both binaries are created with the source contents. -/
theorem test_basic :
    (copyBinaries "/src" ["/t"] false [] []
        (mkFS [mkFile "istio-cni" "cni111", mkFile "istio-iptables" "iptables111"] [])).2 = none ∧
      (copyBinaries "/src" ["/t"] false [] []
        (mkFS [mkFile "istio-cni" "cni111", mkFile "istio-iptables" "iptables111"] [])).1.entry
          "/t" "istio-cni".toList = some (mkFile "istio-cni" "cni111") ∧
      (copyBinaries "/src" ["/t"] false [] []
        (mkFS [mkFile "istio-cni" "cni111", mkFile "istio-iptables" "iptables111"] [])).1.entry
          "/t" "istio-iptables".toList = some (mkFile "istio-iptables" "iptables111") := by
  decide

/-- `TestCopyBinaries`, "update binaries": both binaries hold the source contents. -/
theorem test_update :
    (copyBinaries "/src" ["/t"] true [] [] basicFS).2 = none ∧
      (copyBinaries "/src" ["/t"] true [] [] basicFS).1.entry "/t" "istio-cni".toList
        = some (mkFile "istio-cni" "cni111") ∧
      (copyBinaries "/src" ["/t"] true [] [] basicFS).1.entry "/t" "istio-iptables".toList
        = some (mkFile "istio-iptables" "iptables111") := by
  decide

/-- `TestCopyBinaries`, "don't update binaries": the installed binaries stay. -/
theorem test_no_update :
    (copyBinaries "/src" ["/t"] false [] [] basicFS).2 = none ∧
      (copyBinaries "/src" ["/t"] false [] [] basicFS).1.entry "/t" "istio-cni".toList
        = some (mkFile "istio-cni" "cni000") ∧
      (copyBinaries "/src" ["/t"] false [] [] basicFS).1.entry "/t" "istio-iptables".toList
        = some (mkFile "istio-iptables" "iptables111") := by
  decide

/-- `TestCopyBinaries`, "skip binaries": only `istio-cni` appears in the target. -/
theorem test_skip :
    (copyBinaries "/src" ["/t"] false ["istio-iptables".toList] []
        (mkFS [mkFile "istio-cni" "cni111", mkFile "istio-iptables" "iptables111"] [])).1.entry
          "/t" "istio-cni".toList = some (mkFile "istio-cni" "cni111") ∧
      (copyBinaries "/src" ["/t"] false ["istio-iptables".toList] []
        (mkFS [mkFile "istio-cni" "cni111", mkFile "istio-iptables" "iptables111"] [])).1.entry
          "/t" "istio-iptables".toList = none := by
  decide

/-- `TestCopyBinaries`, "binaries prefix": the destinations carry the prefix. -/
theorem test_binaries_prefix :
    ((copyBinaries "/src" ["/t"] false [] "prefix-".toList
        (mkFS [mkFile "istio-cni" "cni111", mkFile "istio-iptables" "iptables111"] [])).1.entry
          "/t" "prefix-istio-cni".toList).map Entry.contents = some "cni111" ∧
      ((copyBinaries "/src" ["/t"] false [] "prefix-".toList
        (mkFS [mkFile "istio-cni" "cni111", mkFile "istio-iptables" "iptables111"] [])).1.entry
          "/t" "prefix-istio-iptables".toList).map Entry.contents = some "iptables111" ∧
      (copyBinaries "/src" ["/t"] false [] "prefix-".toList
        (mkFS [mkFile "istio-cni" "cni111", mkFile "istio-iptables" "iptables111"] [])).1.entry
          "/t" "istio-cni".toList = none := by
  decide

/-- `TestCopyBinariesWhenTmpExist`: the run with prefix `v2-5-` removes the first temp
file only, the following run with prefix `v2-4-` removes the second, and both
binaries are there in the end. -/
theorem test_tmp_exist :
    (copyBinaries "/src" ["/t"] false [] "v2-5-".toList tmpExistFS).2 = none ∧
      (copyBinaries "/src" ["/t"] false [] "v2-5-".toList tmpExistFS).1.entry "/t"
        "v2-5-istio-cni.tmp.3816169537".toList = none ∧
      ((copyBinaries "/src" ["/t"] false [] "v2-5-".toList tmpExistFS).1.entry "/t"
        "v2-4-istio-cni.tmp.4977877".toList).isSome = true ∧
      (copyBinaries "/src" ["/t"] false [] "v2-4-".toList
        (copyBinaries "/src" ["/t"] false [] "v2-5-".toList tmpExistFS).1).2 = none ∧
      (copyBinaries "/src" ["/t"] false [] "v2-4-".toList
        (copyBinaries "/src" ["/t"] false [] "v2-5-".toList tmpExistFS).1).1.entry "/t"
          "v2-4-istio-cni.tmp.4977877".toList = none ∧
      ((copyBinaries "/src" ["/t"] false [] "v2-4-".toList
        (copyBinaries "/src" ["/t"] false [] "v2-5-".toList tmpExistFS).1).1.entry "/t"
          "v2-4-istio-cni".toList).isSome = true ∧
      ((copyBinaries "/src" ["/t"] false [] "v2-4-".toList
        (copyBinaries "/src" ["/t"] false [] "v2-5-".toList tmpExistFS).1).1.entry "/t"
          "v2-5-istio-cni".toList).isSome = true := by
  decide

/-! ## The properties C1 to C10 -/

/-- C1 (amended). Copy postcondition for runs in the domain `inScope` (the prefix is a
file-name fragment, the directories are clean absolute paths, those of the targets
without glob metacharacters, none below another) whose source directory is not a
target directory and whose destination names are free of glob metacharacters: if
`copyBinaries` returns nil, then for every writable directory `targetDir` of
`targetDirs` and every regular file `f` directly in `srcDir` with `f.name` not in
`skipBinaries`, whenever `updateBinaries` is true or the destination
`binariesPrefix ++ f.name` did not exist in `targetDir` before the call, the
destination exists after the call and holds the contents of the source file called
`f.name`, whatever it held before. -/
theorem copyBinaries_copies (srcDir : String) (targetDirs : List String)
    (updateBinaries : Bool) (skipBinaries : List Name) (binariesPrefix : Name) (fs : FS)
    (_hscope : inScope srcDir targetDirs binariesPrefix fs = true)
    (hsrc : srcDir ∉ targetDirs)
    (hplain : ∀ g, SourceFile fs srcDir skipBinaries g →
      plainName (binariesPrefix ++ g.name) = true)
    (hok : (copyBinaries srcDir targetDirs updateBinaries skipBinaries binariesPrefix fs).2
      = none)
    (targetDir : String) (ht : targetDir ∈ targetDirs)
    (hw : isDirWriteable fs targetDir = none) (f : Entry)
    (hf : SourceFile fs srcDir skipBinaries f)
    (hc : updateBinaries = true ∨ fs.entry targetDir (binariesPrefix ++ f.name) = none) :
    ∃ s, fs.entry srcDir f.name = some s ∧
      (copyBinaries srcDir targetDirs updateBinaries skipBinaries binariesPrefix fs).1.entry
        targetDir (binariesPrefix ++ f.name)
        = some (installed (binariesPrefix ++ f.name) s.contents) :=
  run_fresh hsrc hplain targetDir hw f hf targetDirs (fun _ h => h) ht fs
    ⟨rfl, fun _ => rfl⟩ hok (hc.elim Or.inl (fun h => Or.inr (Or.inl h)))

/-- C1, counterexample. (1) A source file called `?`: the run returns nil, the regular
source file `1.tmp.x` is not skipped and its destination did not exist before, yet
the destination does not exist after the run, the cleanup for `?` having removed it.
(2) A source directory that is a target directory: the destination `aaB` of `aB` holds
"1" while `aB` held "2" before the run, and the destination `aab` of `ab` holds "3"
while `ab` holds "4" after the run.  Both runs lie in the domain `inScope` and use ASCII names only. -/
theorem copyBinaries_copies_counterexample :
    (inScope "/src" ["/t"] [] globFS = true ∧ asciiRun "/src" ["/t"] [] globFS = true ∧
      (copyBinaries "/src" ["/t"] false [] [] globFS).2 = none ∧
      isDirWriteable globFS "/t" = none ∧
      globFS.entry "/src" "1.tmp.x".toList = some (mkFile "1.tmp.x" "one") ∧
      globFS.entry "/t" "1.tmp.x".toList = none ∧
      (copyBinaries "/src" ["/t"] false [] [] globFS).1.entry "/t" "1.tmp.x".toList = none) ∧
    (inScope "/d" ["/d"] ['a'] aliasFS = true ∧ asciiRun "/d" ["/d"] ['a'] aliasFS = true ∧
      (copyBinaries "/d" ["/d"] true [] ['a'] aliasFS).2 = none ∧
      isDirWriteable aliasFS "/d" = none ∧
      (aliasFS.entry "/d" "aB".toList).map Entry.contents = some "2" ∧
      ((copyBinaries "/d" ["/d"] true [] ['a'] aliasFS).1.entry "/d" "aaB".toList).map
        Entry.contents = some "1" ∧
      ((copyBinaries "/d" ["/d"] true [] ['a'] aliasFS).1.entry "/d" "ab".toList).map
        Entry.contents = some "4" ∧
      ((copyBinaries "/d" ["/d"] true [] ['a'] aliasFS).1.entry "/d" "aab".toList).map
        Entry.contents = some "3") := by
  decide

/-- C1, instance: "update binaries" of `TestCopyBinaries`. -/
theorem copyBinaries_copies_witness :
    ∃ s, basicFS.entry "/src" "istio-cni".toList = some s ∧
      (copyBinaries "/src" ["/ro", "/t"] true [] [] basicFS).1.entry "/t"
        ([] ++ "istio-cni".toList) = some (installed ([] ++ "istio-cni".toList) s.contents) :=
  copyBinaries_copies "/src" ["/ro", "/t"] true [] [] basicFS (by decide) (by decide)
    (fun g hg => (by decide : ∀ g ∈ [mkFile "istio-cni" "cni111",
      mkFile "istio-iptables" "iptables111"], plainName ([] ++ g.name) = true) g
        (sourceFile_mkFS hg).1)
    (by decide) "/t" (by decide) (by decide) (mkFile "istio-cni" "cni111")
    ⟨_, rfl, by decide, rfl, by decide⟩ (Or.inl rfl)

/-- C2 (amended). The no-update policy preserves installed binaries whose name is not
a stale temp name of the run.  For every run with `updateBinaries = false` in the
domain `inScope` whose destination names (the names that the run goes on to clean up
and copy) are free of glob metacharacters: an entry `binariesPrefix ++ name` (in
particular the destination of a source file) that exists in a directory before the
run, and whose name does not start with `D ++ ".tmp."` for a destination name `D` that
the run goes on to clean up and copy into that directory, is after the run exactly the
entry it was before. -/
theorem copyBinaries_no_update_preserves (srcDir : String) (targetDirs : List String)
    (skipBinaries : List Name) (binariesPrefix : Name) (fs : FS)
    (_hscope : inScope srcDir targetDirs binariesPrefix fs = true)
    (hplain : ∀ p ∈ runDestinations srcDir targetDirs false skipBinaries binariesPrefix fs,
      plainName p.2 = true)
    (d : String) (name : Name) (e : Entry)
    (hex : fs.entry d (binariesPrefix ++ name) = some e)
    (hno : ∀ p ∈ runDestinations srcDir targetDirs false skipBinaries binariesPrefix fs,
      p.1 = d → ¬ tmpPrefix p.2 <+: binariesPrefix ++ name) :
    (copyBinaries srcDir targetDirs false skipBinaries binariesPrefix fs).1.entry d
      (binariesPrefix ++ name) = some e :=
  run_preserves srcDir targetDirs skipBinaries binariesPrefix fs d (binariesPrefix ++ name) e
    hex (fun p hp hd => by
      cases hm : tmpMatch p.2 (binariesPrefix ++ name) with
      | false => rfl
      | true => exact absurd (tmpMatch_plain_imp (hplain p hp) hm) (hno p hp hd))

/-- C2, counterexample.  With `updateBinaries = false` the destination `a.tmp.1` of the
source file `a.tmp.1` exists before the run with contents "OLD" and holds "S" after
it: the cleanup for `a` removed it and the file was then copied afresh.  The run lies in
the domain `inScope` and its names are free of glob metacharacters. -/
theorem copyBinaries_no_update_counterexample :
    inScope "/src" ["/t"] [] tmpNameFS = true ∧
      (∀ p ∈ runDestinations "/src" ["/t"] false [] [] tmpNameFS, plainName p.2 = true) ∧
      (tmpNameFS.entry "/src" "a.tmp.1".toList).isSome = true ∧
      (tmpNameFS.entry "/t" "a.tmp.1".toList).map Entry.contents = some "OLD" ∧
      ((copyBinaries "/src" ["/t"] false [] [] tmpNameFS).1.entry "/t" "a.tmp.1".toList).map
        Entry.contents = some "S" := by
  decide

/-- C2, instance: the installed `istio-cni` keeps its older contents in a run that
copies the missing `istio-iptables`. -/
theorem copyBinaries_no_update_preserves_witness :
    (copyBinaries "/src" ["/t"] false [] [] partialFS).1.entry "/t" ([] ++ "istio-cni".toList)
      = some (mkFile "istio-cni" "cni000") :=
  copyBinaries_no_update_preserves "/src" ["/t"] [] [] partialFS (by decide) (by decide) "/t"
    "istio-cni".toList (mkFile "istio-cni" "cni000") (by decide) (by decide)

/-- C3 (amended). Writes happen only at destinations of eligible source files.  For
every run (successful or not) in the domain `inScope` whose destination names are free
of glob metacharacters or whose names are all ASCII: an entry that exists in a
directory after the run and was not there, the same, before is a regular file in a
writable directory of `targetDirs`, at a destination name that the run goes on to
copy there; its name starts with `binariesPrefix` and is not `binariesPrefix ++ s` for a
skipped name `s`; and when `srcDir` is not one of the target directories, the name is
`binariesPrefix ++ f.name` for a regular file `f` directly in `srcDir` with `f.name` not
in `skipBinaries`, and the entry holds the contents of `f`. -/
theorem copyBinaries_writes_only_destinations (srcDir : String) (targetDirs : List String)
    (updateBinaries : Bool) (skipBinaries : List Name) (binariesPrefix : Name) (fs : FS)
    (_hscope : inScope srcDir targetDirs binariesPrefix fs = true)
    (_hpat :
      (∀ p ∈ runDestinations srcDir targetDirs updateBinaries skipBinaries binariesPrefix fs,
        plainName p.2 = true) ∨ asciiRun srcDir targetDirs binariesPrefix fs = true)
    (d : String) (n : Name) (e : Entry)
    (hafter : (copyBinaries srcDir targetDirs updateBinaries skipBinaries binariesPrefix
      fs).1.entry d n = some e)
    (hbefore : fs.entry d n ≠ some e) :
    d ∈ targetDirs ∧ isDirWriteable fs d = none ∧
      (d, n) ∈ runDestinations srcDir targetDirs updateBinaries skipBinaries binariesPrefix fs ∧
      e.isDir = false ∧
      (srcDir ∉ targetDirs →
        ∃ f, SourceFile fs srcDir skipBinaries f ∧ fs.entry srcDir f.name = some f ∧
          n = binariesPrefix ++ f.name ∧ e = installed n f.contents) ∧
      (∀ s ∈ skipBinaries, n ≠ binariesPrefix ++ s) ∧ binariesPrefix <+: n := by
  rcases run_destinations_effect srcDir targetDirs updateBinaries skipBinaries binariesPrefix
    fs d n with h | ⟨D, hD, h | ⟨hn, c, h⟩⟩
  · rw [hafter] at h
    exact absurd h.symm hbefore
  · rw [hafter] at h
    cases h.2
  · subst hn
    obtain ⟨h1, h2, ⟨f, _, hskip, hf⟩, _⟩ :=
      mem_runDestinations fs targetDirs fs (fun _ => rfl) (fun _ h => h) hD
    rw [hafter] at h
    refine ⟨h1, h2, hD, ?_, fun hsrc => ?_, ?_, ?_⟩
    · rw [Option.some.inj h]
      rfl
    · rcases run_effect srcDir targetDirs updateBinaries skipBinaries binariesPrefix fs
        hsrc d n with h' | ⟨_, _, g, hg, h' | ⟨hn, hs, h'⟩⟩
      · rw [hafter] at h'
        exact absurd h'.symm hbefore
      · rw [hafter] at h'
        cases h'.2
      · rw [hafter] at h'
        exact ⟨g, hg, hs, hn, Option.some.inj h'⟩
    · intro s hs' hns
      rw [hf] at hns
      exact hskip ((List.append_cancel_left hns) ▸ hs')
    · rw [hf]
      exact List.prefix_append _ _

/-- C3, counterexample.  With the source directory as target directory, the run
creates `aaB` holding "1", and `aaB` is the destination of `aB` only, which held "2"
before the run; it creates `aab` holding "3", and `aab` is the destination of `ab`
only, which holds "4" after the run.  The run lies in the domain `inScope` and its
names are ASCII and free of glob metacharacters. -/
theorem copyBinaries_writes_counterexample :
    inScope "/d" ["/d"] ['a'] aliasFS = true ∧ asciiRun "/d" ["/d"] ['a'] aliasFS = true ∧
      (∀ p ∈ runDestinations "/d" ["/d"] true [] ['a'] aliasFS, plainName p.2 = true) ∧
      aliasFS.entry "/d" "aaB".toList = none ∧
      (copyBinaries "/d" ["/d"] true [] ['a'] aliasFS).1.entry "/d" "aaB".toList
        = some (installed "aaB".toList "1") ∧
      (aliasFS.entry "/d" "aB".toList).map Entry.contents = some "2" ∧
      aliasFS.entry "/d" "aab".toList = none ∧
      (copyBinaries "/d" ["/d"] true [] ['a'] aliasFS).1.entry "/d" "aab".toList
        = some (installed "aab".toList "3") ∧
      ((copyBinaries "/d" ["/d"] true [] ['a'] aliasFS).1.entry "/d" "ab".toList).map
        Entry.contents = some "4" := by
  decide

/-- C3, instance: "update binaries" of `TestCopyBinaries`, the changed file. -/
theorem copyBinaries_writes_only_destinations_witness :
    "/t" ∈ ["/t"] ∧ isDirWriteable basicFS "/t" = none ∧
      ("/t", "istio-cni".toList) ∈ runDestinations "/src" ["/t"] true [] [] basicFS ∧
      (installed "istio-cni".toList "cni111").isDir = false ∧
      ("/src" ∉ ["/t"] →
        ∃ f, SourceFile basicFS "/src" [] f ∧ basicFS.entry "/src" f.name = some f ∧
          "istio-cni".toList = [] ++ f.name ∧
          installed "istio-cni".toList "cni111" = installed "istio-cni".toList f.contents) ∧
      (∀ s ∈ ([] : List Name), "istio-cni".toList ≠ [] ++ s) ∧
      ([] : Name) <+: "istio-cni".toList :=
  copyBinaries_writes_only_destinations "/src" ["/t"] true [] [] basicFS (by decide)
    (Or.inl (by decide)) "/t" "istio-cni".toList (installed "istio-cni".toList "cni111") (by decide) (by decide)

/-- C4 (amended). Temp-file cleanup is scoped by the destination names that the run
goes on to copy.  For every run in the domain `inScope` whose destination names are
free of glob metacharacters: an entry present before the run and absent after it has
a name that starts with `D ++ ".tmp."` for a destination name `D` that the run goes on
to clean up and copy into that directory; an entry whose name starts with no such
`D ++ ".tmp."` and is no such destination name is, after the run, exactly as it was
before.  Such a `D` starts with `binariesPrefix`, its directory is a writable directory
of `targetDirs`, and `D` is `binariesPrefix ++ f.name` for a regular, non-skipped file
`f` of `srcDir` as it was before the run when `srcDir` is not a target directory. -/
theorem copyBinaries_cleanup_scope (srcDir : String) (targetDirs : List String)
    (updateBinaries : Bool) (skipBinaries : List Name) (binariesPrefix : Name) (fs : FS)
    (_hscope : inScope srcDir targetDirs binariesPrefix fs = true)
    (hplain :
      ∀ p ∈ runDestinations srcDir targetDirs updateBinaries skipBinaries binariesPrefix fs,
        plainName p.2 = true)
    (d : String) (n : Name) :
    (fs.entry d n ≠ none →
      (copyBinaries srcDir targetDirs updateBinaries skipBinaries binariesPrefix fs).1.entry
        d n = none →
      ∃ p ∈ runDestinations srcDir targetDirs updateBinaries skipBinaries binariesPrefix fs,
        p.1 = d ∧ tmpPrefix p.2 <+: n) ∧
    ((∀ p ∈ runDestinations srcDir targetDirs updateBinaries skipBinaries binariesPrefix fs,
        p.1 = d → n ≠ p.2 ∧ ¬ tmpPrefix p.2 <+: n) →
      (copyBinaries srcDir targetDirs updateBinaries skipBinaries binariesPrefix fs).1.entry
        d n = fs.entry d n) ∧
    (∀ p ∈ runDestinations srcDir targetDirs updateBinaries skipBinaries binariesPrefix fs,
      p.1 ∈ targetDirs ∧ isDirWriteable fs p.1 = none ∧ binariesPrefix <+: p.2 ∧
        (srcDir ∉ targetDirs →
          ∃ f, SourceFile fs srcDir skipBinaries f ∧ p.2 = binariesPrefix ++ f.name)) := by
  have key := run_destinations_effect srcDir targetDirs updateBinaries skipBinaries
    binariesPrefix fs d n
  refine ⟨?_, ?_, ?_⟩
  · intro hb ha
    rcases key with h | ⟨D, hD, h | ⟨_, c, h⟩⟩
    · rw [ha] at h
      exact absurd h.symm hb
    · exact ⟨(d, D), hD, rfl, tmpMatch_plain_imp (hplain (d, D) hD) h.1⟩
    · rw [ha] at h
      cases h
  · intro hno
    rcases key with h | ⟨D, hD, h | ⟨hn, _⟩⟩
    · exact h
    · exact absurd (tmpMatch_plain_imp (hplain (d, D) hD) h.1) (hno (d, D) hD rfl).2
    · exact absurd hn (hno (d, D) hD rfl).1
  · rintro ⟨t, D⟩ hp
    obtain ⟨h1, h2, ⟨f, _, _, hf⟩, h4⟩ := mem_runDestinations fs targetDirs fs (fun _ => rfl)
      (fun _ h => h) hp
    exact ⟨h1, h2, hf ▸ List.prefix_append _ _, fun hns => h4 hns rfl⟩

/-- C4, counterexample. (1) `TestCopyBinariesWhenTmpExist` with the prefix `*`: the only
destination name of the run is `*istio-cni`; the file `v2-4-istio-cni.tmp.4977877` is
not `*istio-cni` followed by `.tmp.` and a suffix, so in no reading of its name as
`Y.tmp.suffix` is `Y` a destination name, and yet the run removes it.  (2) The only
source file is `q.tmp.1`, so the only destination name is `q.tmp.1`; the target file
`q.tmp.1` has the form `Y.tmp.suffix` for `Y = q` only, `q` is no destination name, and
with `updateBinaries` the run changes its contents.  Both runs lie in the domain
`inScope` and use ASCII names only. -/
theorem copyBinaries_cleanup_counterexample :
    (inScope "/src" ["/t"] "*".toList tmpExistFS = true ∧
      asciiRun "/src" ["/t"] "*".toList tmpExistFS = true ∧
      (copyBinaries "/src" ["/t"] false [] "*".toList tmpExistFS).2 = none ∧
      runDestinations "/src" ["/t"] false [] "*".toList tmpExistFS
        = [("/t", "*istio-cni".toList)] ∧
      ¬ tmpPrefix "*istio-cni".toList <+: "v2-4-istio-cni.tmp.4977877".toList ∧
      (tmpExistFS.entry "/t" "v2-4-istio-cni.tmp.4977877".toList).isSome = true ∧
      (copyBinaries "/src" ["/t"] false [] "*".toList tmpExistFS).1.entry "/t"
        "v2-4-istio-cni.tmp.4977877".toList = none) ∧
    (inScope "/src" ["/t"] [] tmpOnlyFS = true ∧
      asciiRun "/src" ["/t"] [] tmpOnlyFS = true ∧
      runDestinations "/src" ["/t"] true [] [] tmpOnlyFS = [("/t", "q.tmp.1".toList)] ∧
      "q.tmp.1".toList = "q".toList ++ ".tmp.".toList ++ "1".toList ∧
      (tmpOnlyFS.entry "/t" "q.tmp.1".toList).map Entry.contents = some "OLD" ∧
      ((copyBinaries "/src" ["/t"] true [] [] tmpOnlyFS).1.entry "/t" "q.tmp.1".toList).map
        Entry.contents = some "NEW") := by
  decide

/-- C4, instance: `TestCopyBinariesWhenTmpExist`, the temp file of the other prefix is
untouched by the run with prefix `v2-5-`. -/
theorem copyBinaries_cleanup_scope_witness :
    (copyBinaries "/src" ["/t"] false [] "v2-5-".toList tmpExistFS).1.entry "/t"
        "v2-4-istio-cni.tmp.4977877".toList
      = tmpExistFS.entry "/t" "v2-4-istio-cni.tmp.4977877".toList :=
  (copyBinaries_cleanup_scope "/src" ["/t"] false [] "v2-5-".toList tmpExistFS (by decide)
    (by decide) "/t" "v2-4-istio-cni.tmp.4977877".toList).2.1 (by decide)

/-- C5 (amended). Stale-temp cleanup is complete and literal for destination names free
of glob metacharacters, in the domain `inScope` (the prefix is a file-name fragment,
`targetDir` a clean absolute path without glob metacharacters): when the loop body
goes on to copy the entry `f` of `srcDir` and `binariesPrefix ++ f.name` contains none
of `*`, `?`, `[` and the backslash, the entries
the run attempts to delete before the copy are exactly the entries of `targetDir`
whose name starts with `binariesPrefix ++ f.name ++ ".tmp."`; and in a writable
directory every such entry that can be removed is gone after the cleanup, whether or
not other deletions fail, and is still gone when the copy of `f` has completed. -/
theorem cleanup_literal_complete (srcDir targetDir : String) (updateBinaries : Bool)
    (skipBinaries : List Name) (binariesPrefix : Name) (fs : FS) (f : Entry)
    (hscope : inScope srcDir [targetDir] binariesPrefix fs = true)
    (_hf : ∃ dir, fs srcDir = some dir ∧ f ∈ dir.entries)
    (hp : proceeds targetDir updateBinaries skipBinaries binariesPrefix fs f = true)
    (hplain : plainName (binariesPrefix ++ f.name) = true) :
    (∀ n, n ∈ filepathGlob fs targetDir (binariesPrefix ++ f.name) ↔
      (fs.entry targetDir n).isSome = true ∧ tmpPrefix (binariesPrefix ++ f.name) <+: n) ∧
    (isDirWriteable fs targetDir = none →
      ∀ n, tmpPrefix (binariesPrefix ++ f.name) <+: n →
        (∀ e, fs.entry targetDir n = some e → e.immutable = false) →
        (removeStaleTemps fs targetDir (binariesPrefix ++ f.name)).entry targetDir n = none ∧
        ((copyFile srcDir targetDir updateBinaries skipBinaries binariesPrefix fs f).2 = none →
          (copyFile srcDir targetDir updateBinaries skipBinaries binariesPrefix fs f).1.entry
            targetDir n = none)) := by
  have hsep : ∀ n e, fs.entry targetDir n = some e → '/' ∉ n := fun n e he =>
    inScope_entry_sep hscope (List.mem_cons_of_mem _ (List.mem_singleton.mpr rfl)) he
  have glob : ∀ n, n ∈ filepathGlob fs targetDir (binariesPrefix ++ f.name) ↔
      (fs.entry targetDir n).isSome = true ∧ tmpPrefix (binariesPrefix ++ f.name) <+: n := by
    intro n
    rw [mem_filepathGlob_iff]
    constructor
    · rintro ⟨h1, h2⟩
      obtain ⟨e, he⟩ := Option.isSome_iff_exists.mp h1
      exact ⟨h1, (tmpMatch_plain_iff _ n hplain (hsep n e he)).mp h2⟩
    · rintro ⟨h1, h2⟩
      obtain ⟨e, he⟩ := Option.isSome_iff_exists.mp h1
      exact ⟨h1, (tmpMatch_plain_iff _ n hplain (hsep n e he)).mpr h2⟩
  refine ⟨glob, fun hw n hn hi => ?_⟩
  have clean :
      (removeStaleTemps fs targetDir (binariesPrefix ++ f.name)).entry targetDir n = none := by
    cases he : fs.entry targetDir n with
    | none =>
      rcases removeStaleTemps_entry fs targetDir (binariesPrefix ++ f.name) n with h | ⟨_, h⟩
      · exact h.trans he
      · exact h
    | some e =>
      exact foldl_remove_gone targetDir _ fs n ((glob n).mpr ⟨by simp [he], hn⟩) hw hi
  refine ⟨clean, fun hok => ?_⟩
  rw [copyFile_of_proceeds hp] at hok ⊢
  split at hok
  · cases hok
  · rename_i fs2 hc
    simp only
    have hne : n ≠ binariesPrefix ++ f.name := by
      rintro rfl
      exact tmpPrefix_ne _ hn
    rw [(atomicCopy_ok hc).2.2.2 n hne]
    exact clean

/-- C5, counterexample. (1) With the prefix `*` the loop body goes on to copy
`istio-cni` and the pattern matches `v2-4-istio-cni.tmp.4977877`, whose name does not
start with the literal `*istio-cni.tmp.`.  (2) The run over the source files `a` and
`a.tmp.1` returns nil, the cleanup for `a` removes the stale `a.tmp.1`, and after the
run the target directory holds `a.tmp.1`, whose name starts with `a.tmp.`.  Both lie in
the domain `inScope` and use ASCII names only. -/
theorem cleanup_literal_counterexample :
    (inScope "/src" ["/t"] "*".toList tmpExistFS = true ∧
      asciiRun "/src" ["/t"] "*".toList tmpExistFS = true ∧
      proceeds "/t" false [] "*".toList tmpExistFS (mkFile "istio-cni" "content") = true ∧
      "v2-4-istio-cni.tmp.4977877".toList ∈
        filepathGlob tmpExistFS "/t" ("*".toList ++ "istio-cni".toList) ∧
      ¬ tmpPrefix ("*".toList ++ "istio-cni".toList) <+: "v2-4-istio-cni.tmp.4977877".toList) ∧
    (inScope "/src" ["/t"] [] tmpNameFS = true ∧
      asciiRun "/src" ["/t"] [] tmpNameFS = true ∧
      (copyBinaries "/src" ["/t"] false [] [] tmpNameFS).2 = none ∧
      (removeStaleTemps tmpNameFS "/t" ([] ++ "a".toList)).entry "/t" "a.tmp.1".toList = none ∧
      tmpPrefix ([] ++ "a".toList) <+: "a.tmp.1".toList ∧
      ((copyBinaries "/src" ["/t"] false [] [] tmpNameFS).1.entry "/t" "a.tmp.1".toList).isSome
        = true) := by
  decide

/-- C5, instance: `TestCopyBinariesWhenTmpExist`, the stale temp file of the prefix
`v2-5-` is gone when the copy has completed. -/
theorem cleanup_literal_complete_witness :
    (copyFile "/src" "/t" false [] "v2-5-".toList tmpExistFS
        (mkFile "istio-cni" "content")).1.entry "/t" "v2-5-istio-cni.tmp.3816169537".toList
      = none :=
  ((cleanup_literal_complete "/src" "/t" false [] "v2-5-".toList tmpExistFS
      (mkFile "istio-cni" "content") (by decide) ⟨_, rfl, by decide⟩ (by decide)
      (by decide)).2
    (by decide) "v2-5-istio-cni.tmp.3816169537".toList (by decide) (by decide)).2 (by decide)

/-- C6. Exact error condition: `copyBinaries` returns a non-nil error exactly when,
while processing some writable target directory, listing `srcDir` fails or the atomic
copy of some eligible file fails, and the error returned is the error of that
operation; it is never the error of the writability probe or of a failed deletion of a
stale temp file; an unwritable target directory is passed over with the run going on
to the remaining ones; and the loop body returns with an error exactly when the atomic
copy that follows the cleanup fails, whatever the deletions returned. -/
theorem copyBinaries_error_iff (srcDir : String) (targetDirs : List String)
    (updateBinaries : Bool) (skipBinaries : List Name) (binariesPrefix : Name) (fs : FS)
    (e : Error) :
    ((copyBinaries srcDir targetDirs updateBinaries skipBinaries binariesPrefix fs).2 = some e
        ↔ FatalAt srcDir targetDirs updateBinaries skipBinaries binariesPrefix fs e) ∧
      ((copyBinaries srcDir targetDirs updateBinaries skipBinaries binariesPrefix fs).2 = some e
        → e = .readDir srcDir ∨ ∃ name t, e = .copy srcDir name t (binariesPrefix ++ name)) ∧
      (∀ t rest, isDirWriteable fs t ≠ none →
        copyBinaries srcDir (t :: rest) updateBinaries skipBinaries binariesPrefix fs =
          copyBinaries srcDir rest updateBinaries skipBinaries binariesPrefix fs) ∧
      ∀ (s : FS) (t : String) (f : Entry),
        ((copyFile srcDir t updateBinaries skipBinaries binariesPrefix s f).2 = some e ↔
          proceeds t updateBinaries skipBinaries binariesPrefix s f = true ∧
            atomicCopy (removeStaleTemps s t (binariesPrefix ++ f.name)) srcDir f.name t
              (binariesPrefix ++ f.name) = .error e) := by
  refine ⟨⟨copyBinaries_error, copyBinaries_fatal⟩, fun h => ?_, fun t rest hw => ?_,
    fun s t f => copyFile_error_iff srcDir t updateBinaries skipBinaries binariesPrefix s f e⟩
  · obtain ⟨_, t, _, _, _, _, _, hf⟩ := copyBinaries_error h
    rcases hf with hr | ⟨_, f, _, _, _, _, _, hc⟩
    · exact Or.inl (osReadDir_error_kind hr)
    · exact Or.inr ⟨f.name, t, atomicCopy_error_kind hc⟩
  · rw [copyBinaries_cons, if_neg hw]

/-- C6, instance: the second source file is unreadable, and the run fails with the
error of its copy. -/
theorem copyBinaries_error_iff_witness :
    FatalAt "/src" ["/ro", "/t"] false [] [] unreadableFS
      (.copy "/src" "b".toList "/t" "b".toList) :=
  (copyBinaries_error_iff "/src" ["/ro", "/t"] false [] [] unreadableFS
    (.copy "/src" "b".toList "/t" "b".toList)).1.mp (by decide)

/-- C7 (amended). Idempotence with `updateBinaries = false`, for runs in the domain
`inScope` whose source directory is not a target directory and whose destination
names are free of glob metacharacters: if a first run of `copyBinaries` returns nil, a second run with the
same arguments returns nil and leaves the file system exactly as the first run left
it. -/
theorem copyBinaries_idempotent (srcDir : String) (targetDirs : List String)
    (skipBinaries : List Name) (binariesPrefix : Name) (fs : FS)
    (_hscope : inScope srcDir targetDirs binariesPrefix fs = true)
    (hsrc : srcDir ∉ targetDirs)
    (hplain : ∀ g, SourceFile fs srcDir skipBinaries g →
      plainName (binariesPrefix ++ g.name) = true)
    (hok : (copyBinaries srcDir targetDirs false skipBinaries binariesPrefix fs).2 = none) :
    copyBinaries srcDir targetDirs false skipBinaries binariesPrefix
        (copyBinaries srcDir targetDirs false skipBinaries binariesPrefix fs).1 =
      ((copyBinaries srcDir targetDirs false skipBinaries binariesPrefix fs).1, none) :=
  run_noop targetDirs _ (steady_of_run srcDir targetDirs false skipBinaries binariesPrefix fs hsrc)
    (fun t ht hw => run_settled hsrc hplain t hw targetDirs (fun _ h => h) ht fs
      ⟨rfl, fun _ => rfl⟩ hok)

/-- C7, counterexample. (1) With the source directory as target directory the first run
returns nil and the second run creates `x-x-a`, which the first run did not leave.
(2) With a source file called `?` the first run returns nil and leaves no `1.tmp.x`
in the target directory, and the second run creates it.  Both lie in the domain
`inScope` and use ASCII names only. -/
theorem copyBinaries_idempotent_counterexample :
    (inScope "/src" ["/src"] "x-".toList (mkFS [mkFile "a" "A"] []) = true ∧
      asciiRun "/src" ["/src"] "x-".toList (mkFS [mkFile "a" "A"] []) = true ∧
      (copyBinaries "/src" ["/src"] false [] "x-".toList (mkFS [mkFile "a" "A"] [])).2 = none ∧
      (copyBinaries "/src" ["/src"] false [] "x-".toList (mkFS [mkFile "a" "A"] [])).1.entry
        "/src" "x-x-a".toList = none ∧
      ((copyBinaries "/src" ["/src"] false [] "x-".toList
        (copyBinaries "/src" ["/src"] false [] "x-".toList (mkFS [mkFile "a" "A"] [])).1).1.entry
        "/src" "x-x-a".toList).isSome = true) ∧
    (inScope "/src" ["/t"] [] globFS = true ∧ asciiRun "/src" ["/t"] [] globFS = true ∧
      (copyBinaries "/src" ["/t"] false [] [] globFS).2 = none ∧
      (copyBinaries "/src" ["/t"] false [] [] globFS).1.entry "/t" "1.tmp.x".toList = none ∧
      ((copyBinaries "/src" ["/t"] false [] []
        (copyBinaries "/src" ["/t"] false [] [] globFS).1).1.entry "/t"
          "1.tmp.x".toList).isSome = true) := by
  decide

/-- C7, instance: the stale-temp scenario run twice with the prefix `v2-5-`. -/
theorem copyBinaries_idempotent_witness :
    copyBinaries "/src" ["/ro", "/t"] false [] "v2-5-".toList
        (copyBinaries "/src" ["/ro", "/t"] false [] "v2-5-".toList tmpExistFS).1 =
      ((copyBinaries "/src" ["/ro", "/t"] false [] "v2-5-".toList tmpExistFS).1, none) :=
  copyBinaries_idempotent "/src" ["/ro", "/t"] [] "v2-5-".toList tmpExistFS (by decide)
    (by decide) (fun g hg => (by decide : ∀ g ∈ [mkFile "istio-cni" "content"],
      plainName ("v2-5-".toList ++ g.name) = true) g (sourceFile_mkFS hg).1)
    (by decide)

/-- C8 (amended). The source directory is read-only for every run in the domain
`inScope` (the prefix is a file-name fragment, the directories are clean absolute
paths, those of the targets without glob metacharacters, none below another) in which
`srcDir` is not a writable element of `targetDirs`: after the run the directory `srcDir` is
identical to what it was before, entries and contents included. -/
theorem copyBinaries_source_unchanged (srcDir : String) (targetDirs : List String)
    (updateBinaries : Bool) (skipBinaries : List Name) (binariesPrefix : Name) (fs : FS)
    (_hscope : inScope srcDir targetDirs binariesPrefix fs = true)
    (hsrc : srcDir ∉ targetDirs ∨ isDirWriteable fs srcDir ≠ none) :
    (copyBinaries srcDir targetDirs updateBinaries skipBinaries binariesPrefix fs).1 srcDir
      = fs srcDir :=
  (copyBinaries_frame srcDir targetDirs updateBinaries skipBinaries binariesPrefix fs).2
    srcDir hsrc

/-- C8, counterexample.  With the source directory among the target directories the run
creates `x-a` in the source directory.  The run lies in the domain `inScope`. -/
theorem copyBinaries_source_counterexample :
    inScope "/src" ["/src"] "x-".toList (mkFS [mkFile "a" "A"] []) = true ∧
      (mkFS [mkFile "a" "A"] []).entry "/src" "x-a".toList = none ∧
      (copyBinaries "/src" ["/src"] false [] "x-".toList (mkFS [mkFile "a" "A"] [])).1.entry
        "/src" "x-a".toList = some (installed "x-a".toList "A") := by
  decide

/-- C8, instance: "update binaries" of `TestCopyBinaries`. -/
theorem copyBinaries_source_unchanged_witness :
    (copyBinaries "/src" ["/t"] true [] [] basicFS).1 "/src" = basicFS "/src" :=
  copyBinaries_source_unchanged "/src" ["/t"] true [] [] basicFS (by decide)
    (Or.inl (by decide))

/-- C9. Unwritable target directories are skipped as if absent: the result and the final
file system are those of the call with the unwritable directories removed from
`targetDirs`, no unwritable directory is changed, and when every target directory is
unwritable the call returns nil and leaves the file system as it was. -/
theorem copyBinaries_skips_unwritable (srcDir : String) (targetDirs : List String)
    (updateBinaries : Bool) (skipBinaries : List Name) (binariesPrefix : Name) (fs : FS) :
    copyBinaries srcDir targetDirs updateBinaries skipBinaries binariesPrefix fs =
        copyBinaries srcDir (targetDirs.filter (fun d => (isDirWriteable fs d).isNone))
          updateBinaries skipBinaries binariesPrefix fs ∧
      (∀ d, isDirWriteable fs d ≠ none →
        (copyBinaries srcDir targetDirs updateBinaries skipBinaries binariesPrefix fs).1 d
          = fs d) ∧
      ((∀ d ∈ targetDirs, isDirWriteable fs d ≠ none) →
        copyBinaries srcDir targetDirs updateBinaries skipBinaries binariesPrefix fs
          = (fs, none)) :=
  ⟨copyBinaries_filter_writable _ _ _ _ _ fs fs (fun _ => rfl),
   fun d hd => (copyBinaries_frame _ _ _ _ _ fs).2 d (Or.inr hd),
   copyBinaries_all_unwritable _ _ _ _ _ fs⟩

/-- C9, instance: the only target directory is unwritable. -/
theorem copyBinaries_skips_unwritable_witness :
    copyBinaries "/src" ["/ro"] true [] [] basicFS = (basicFS, none) :=
  (copyBinaries_skips_unwritable "/src" ["/ro"] true [] [] basicFS).2.2 (by decide)

/-- C10. Fail-fast on copy failure: when the target directories before `t` and the
source entries before `f` are processed without error and the atomic copy of `f` into
the writable directory `t` fails, `copyBinaries` returns that error and the final file
system is the state reached after the stale-temp cleanup of `f`, just before the copy
was attempted: nothing after `f` and no target directory after `t` is processed. -/
theorem copyBinaries_fail_fast (srcDir : String) (ds1 : List String) (t : String)
    (ds2 : List String) (updateBinaries : Bool) (skipBinaries : List Name)
    (binariesPrefix : Name) (fs fsT fsF : FS) (l1 : List Entry) (f : Entry) (l2 : List Entry)
    (e : Error)
    (h1 : copyBinaries srcDir ds1 updateBinaries skipBinaries binariesPrefix fs = (fsT, none))
    (hw : isDirWriteable fsT t = none)
    (hr : osReadDir fsT srcDir = .ok (l1 ++ f :: l2))
    (h2 : copyFiles srcDir t updateBinaries skipBinaries binariesPrefix l1 fsT = (fsF, none))
    (hp : proceeds t updateBinaries skipBinaries binariesPrefix fsF f = true)
    (hc : atomicCopy (removeStaleTemps fsF t (binariesPrefix ++ f.name)) srcDir f.name t
      (binariesPrefix ++ f.name) = .error e) :
    copyBinaries srcDir (ds1 ++ t :: ds2) updateBinaries skipBinaries binariesPrefix fs =
      (removeStaleTemps fsF t (binariesPrefix ++ f.name), some e) := by
  rw [copyBinaries_append, h1]
  simp only [if_true]
  rw [copyBinaries_cons, if_pos hw]
  have : pass srcDir t updateBinaries skipBinaries binariesPrefix fsT =
      (removeStaleTemps fsF t (binariesPrefix ++ f.name), some e) := by
    simp only [pass, hr]
    exact copyFiles_fails h2 hp hc
  rw [this]
  simp

/-- C10, instance: the copy of the unreadable second source file fails after the first
file was copied; the third file and the second target directory are not processed. -/
theorem copyBinaries_fail_fast_witness :
    copyBinaries "/src" (["/ro"] ++ "/t" :: ["/t2"]) false [] [] unreadableFS =
      (removeStaleTemps (copyFiles "/src" "/t" false [] [] [mkFile "a" "A"] unreadableFS).1
        "/t" ([] ++ "b".toList), some (.copy "/src" "b".toList "/t" "b".toList)) :=
  copyBinaries_fail_fast "/src" ["/ro"] "/t" ["/t2"] false [] [] unreadableFS unreadableFS
    (copyFiles "/src" "/t" false [] [] [mkFile "a" "A"] unreadableFS).1
    [mkFile "a" "A"] { mkFile "b" "B" with readable := false } [mkFile "c" "C"]
    (.copy "/src" "b".toList "/t" "b".toList)
    rfl (by decide) rfl (Prod.ext rfl (by decide)) (by decide) rfl

end CopyBinaries
